import Mathlib

/-!
Shallow embedding of the topology-analysis graph library
(`src/lib/topology-analysis.ts`) and verification of its specification.

Modelling conventions:
* JavaScript `Map<K, V>` (insertion-ordered, unique keys) is modelled as an
  association list `List (K × V)`; `mapGet` is `Map.get`, `mapSet` is
  `Map.set` (updates in place, appends fresh keys at the end).
* JavaScript `Set<T>` (insertion-ordered) is modelled as a duplicate-free
  `List T`; `setAdd` is `Set.add`.
* Node identifiers are an arbitrary type `α` with decidable equality
  (the source uses strings; no string-specific operation is involved);
  the GraphML exporter, which manipulates the ids as text, uses `String`.
* JavaScript numbers are modelled as `ℚ` where division occurs, as `ℕ∞`
  (`WithTop ℕ`) where the code manipulates `Infinity`, and as `ℤ`/`ℕ`
  for plain counters.
* `while` loops driven by a work queue are modelled by structural recursion
  on an explicit fuel parameter; each wrapper passes a fuel that dominates
  the number of iterations the corresponding JS loop performs on that
  input (each loop enqueues every node at most once, so the number of
  pop-iterations is bounded by `1 + (number of nodes that can ever be
  enqueued)`), so the embedded function runs the loop to completion
  exactly as the source does.
-/

section MapModel

variable {α : Type} [DecidableEq α] {β : Type}

/-- `Map.get`: first binding of the key, if any. -/
def mapGet : List (α × β) → α → Option β
  | [], _ => none
  | (k, v) :: rest, a => if a = k then some v else mapGet rest a

/-- `Map.set`: replace the value in place if the key is bound, else append. -/
def mapSet : List (α × β) → α → β → List (α × β)
  | [], a, b => [(a, b)]
  | (k, v) :: rest, a, b =>
    if a = k then (k, b) :: rest else (k, v) :: mapSet rest a b

/-- `Set.add`: append the element unless it is already present. -/
def setAdd (s : List α) (a : α) : List α :=
  if a ∈ s then s else s ++ [a]

/-- Keys of a map model (`Map.keys()`, in insertion order). -/
def mapKeys (m : List (α × β)) : List α := m.map Prod.fst

/-- Build a map binding every key of `keys` (a `for` loop of `Map.set`). -/
def initMapConst (keys : List α) (b : β) : List (α × β) :=
  keys.foldl (fun m k => mapSet m k b) []

end MapModel

section GraphModel

variable {α : Type} [DecidableEq α]

/-- `interface GraphNode { id: string }` (id type generalised to `α`). -/
structure GraphNode (α : Type) where
  id : α

/-- `interface GraphEdge { source: string; target: string }`. -/
structure GraphEdge (α : Type) where
  source : α
  target : α

/-- `type AdjacencyList = Map<string, Set<string>>`. -/
abbrev AdjacencyList (α : Type) : Type := List (α × List α)

/-- `adj.get(k)?.add(v)`: add `v` to the neighbour set of `k` when the key
`k` is bound; do nothing otherwise (optional-chaining semantics). -/
def addNeighbor (adj : AdjacencyList α) (k v : α) : AdjacencyList α :=
  match mapGet adj k with
  | none => adj
  | some s => mapSet adj k (setAdd s v)

/-- The edge-loop body of `buildAdjacencyList`: each edge adds each endpoint
to the other's neighbour set (undirected). -/
def addEdge (adj : AdjacencyList α) (e : GraphEdge α) : AdjacencyList α :=
  addNeighbor (addNeighbor adj e.source e.target) e.target e.source

/-- `buildAdjacencyList(nodes, edges)`: initialize all nodes with empty
neighbour sets, then add the edges. -/
def buildAdjacencyList (nodes : List (GraphNode α)) (edges : List (GraphEdge α)) :
    AdjacencyList α :=
  edges.foldl addEdge
    (nodes.foldl (fun m n => mapSet m n.id ([] : List α)) ([] : AdjacencyList α))

/-- One step of the neighbour relation of an adjacency list: `u` is a bound
key and `v` is in its neighbour set. -/
def adjStep (adj : AdjacencyList α) (u v : α) : Prop :=
  ∃ ns, mapGet adj u = some ns ∧ v ∈ ns

/-- `t` is reachable from `s` along neighbour steps. -/
def Reaches (adj : AdjacencyList α) (s t : α) : Prop :=
  Relation.ReflTransGen (adjStep adj) s t

/-- The neighbour relation of `adj` is symmetric (as produced from a clean
node/edge snapshot). -/
def SymmetricAdj (adj : AdjacencyList α) : Prop :=
  ∀ a b : α, adjStep adj a b → adjStep adj b a

/-- Fuel that dominates the number of iterations of every queue-driven
loop below: every node that can ever be enqueued is the start node or an
element of some neighbour set, and each is enqueued at most once. -/
def loopFuel (adj : AdjacencyList α) : ℕ :=
  1 + adj.length + (adj.map (fun p => p.2.length)).sum

end GraphModel

section Clustering

variable {α : Type} [DecidableEq α]

/-- `adj.get(x)?.has(y)`: the membership test of the inner double loop. -/
def neighborHas (adj : AdjacencyList α) (x y : α) : Bool :=
  match mapGet adj x with
  | none => false
  | some ns => decide (y ∈ ns)

/-- The double loop of `calculateClusteringCoefficient`: the number of
pairs `i < j` of the list with `adj.get(nl[i])?.has(nl[j])`. -/
def countAdjPairs (adj : AdjacencyList α) : List α → ℕ
  | [] => 0
  | x :: rest =>
    (rest.filter (fun y => neighborHas adj x y)).length + countAdjPairs adj rest

/-- `calculateClusteringCoefficient(adj, nodeId)`: actual edges between
neighbours over possible edges; `0` for degree `< 2` (or an unbound id). -/
def calculateClusteringCoefficient (adj : AdjacencyList α) (nodeId : α) : ℚ :=
  match mapGet adj nodeId with
  | none => 0
  | some neighbors =>
    if neighbors.length < 2 then 0
    else
      (countAdjPairs adj neighbors : ℚ) /
        ((neighbors.length : ℚ) * ((neighbors.length : ℚ) - 1) / 2)

/-- `calculateGlobalClusteringCoefficient(adj)`: running sum and count over
the nodes of degree `≥ 2`, then `sum / count` (or `0`). -/
def calculateGlobalClusteringCoefficient (adj : AdjacencyList α) : ℚ :=
  let sc :=
    adj.foldl
      (fun (p : ℚ × ℕ) e =>
        if 2 ≤ e.2.length then
          (p.1 + calculateClusteringCoefficient adj e.1, p.2 + 1)
        else p)
      (0, 0)
  if 0 < sc.2 then sc.1 / (sc.2 : ℚ) else 0

end Clustering

section PathFinder

variable {α : Type} [DecidableEq α]

/-- The neighbour loop of `findShortestPath`: returns the found path
(`Sum.inl`) as soon as a neighbour is the target, otherwise the updated
visited set and path queue. -/
def spScan (target : α) (path : List α) :
    List α → List α → List (List α) → (List α) ⊕ (List α × List (List α))
  | [], visited, queue => Sum.inr (visited, queue)
  | w :: ws, visited, queue =>
    if w = target then Sum.inl (path ++ [w])
    else if w ∈ visited then spScan target path ws visited queue
    else spScan target path ws (visited ++ [w]) (queue ++ [path ++ [w]])

/-- The BFS `while` loop of `findShortestPath` over a queue of paths. -/
def spLoop (adj : AdjacencyList α) (target : α) :
    ℕ → List (List α) → List α → Option (List α)
  | 0, _, _ => none
  | _ + 1, [], _ => none
  | fuel + 1, path :: qrest, visited =>
    match path.getLast? with
    | none => none
    | some current =>
      match mapGet adj current with
      | none => spLoop adj target fuel qrest visited
      | some ns =>
        match spScan target path ns visited qrest with
        | Sum.inl found => some found
        | Sum.inr (visited', queue') => spLoop adj target fuel queue' visited'

/-- `findShortestPath(adj, source, target)`. -/
def findShortestPath (adj : AdjacencyList α) (source target : α) :
    Option (List α) :=
  if source = target then some [source]
  else if (mapGet adj source).isNone || (mapGet adj target).isNone then none
  else spLoop adj target (loopFuel adj) [[source]] [source]

/-- The neighbour loop of `bfsDistances`: mark fresh neighbours visited,
record their distance and enqueue them. -/
def bfsScan (d1 : ℕ∞) :
    List α → List α → List (α × ℕ∞) → List α →
      List α × List (α × ℕ∞) × List α
  | [], visited, dist, queue => (visited, dist, queue)
  | w :: ws, visited, dist, queue =>
    if w ∈ visited then bfsScan d1 ws visited dist queue
    else bfsScan d1 ws (visited ++ [w]) (mapSet dist w d1) (queue ++ [w])

/-- The `while` loop of `bfsDistances`. -/
def bfsLoop (adj : AdjacencyList α) :
    ℕ → List α → List α → List (α × ℕ∞) → List (α × ℕ∞)
  | 0, _, _, dist => dist
  | _ + 1, [], _, dist => dist
  | fuel + 1, u :: qrest, visited, dist =>
    match mapGet adj u with
    | none => bfsLoop adj fuel qrest visited dist
    | some ns =>
      match bfsScan ((mapGet dist u).getD ⊤ + 1) ns visited dist qrest with
      | (visited', dist', queue') => bfsLoop adj fuel queue' visited' dist'

/-- The initial distance map of `bfsDistances`: every key of `adj` bound,
`0` at the source and `Infinity` (`⊤`) elsewhere. -/
def initDistances (adj : AdjacencyList α) (source : α) : List (α × ℕ∞) :=
  (mapKeys adj).foldl (fun m k => mapSet m k (if k = source then 0 else ⊤)) []

/-- `bfsDistances(adj, source)`. -/
def bfsDistances (adj : AdjacencyList α) (source : α) : List (α × ℕ∞) :=
  bfsLoop adj (loopFuel adj) [source] [source] (initDistances adj source)

/-- The inner loop of `calculateNetworkDiameter` over one source's distance
values: `none` models the early `return Infinity`, otherwise the running
maximum. -/
def diamScan : List (α × ℕ∞) → ℕ∞ → Option ℕ∞
  | [], m => some m
  | (_, d) :: rest, m => if d = ⊤ then none else diamScan rest (max m d)

/-- The outer loop of `calculateNetworkDiameter` over all sources. -/
def diamSources (adj : AdjacencyList α) : List α → ℕ∞ → ℕ∞
  | [], m => m
  | s :: ss, m =>
    match diamScan (bfsDistances adj s) m with
    | none => ⊤
    | some m' => diamSources adj ss m'

/-- `calculateNetworkDiameter(adj)`: `0` for at most one node, otherwise
the maximum distance over all sources, `Infinity` on any unreachable pair. -/
def calculateNetworkDiameter (adj : AdjacencyList α) : ℕ∞ :=
  if (mapKeys adj).length ≤ 1 then 0
  else diamSources adj (mapKeys adj) 0

end PathFinder

section Brandes

variable {α : Type} [DecidableEq α]

/-- The per-source state of Brandes' algorithm.  The JS `stack` grows by
`push` and shrinks by `pop` at the same end: it is modelled with the most
recently pushed element at the head. -/
structure BrandesState (α : Type) where
  stack : List α
  preds : List (α × List α)
  sigma : List (α × ℚ)
  dist : List (α × ℤ)
  queue : List α

/-- The neighbour loop of the Brandes BFS.  A neighbour absent from `dist`
(an id never listed as a node) satisfies neither `dist.get(w)! < 0` nor
`dist.get(w) === dist.get(v)! + 1` in JS and is skipped. -/
def bScan (v : α) : List α → BrandesState α → BrandesState α
  | [], st => st
  | w :: ws, st =>
    match mapGet st.dist w with
    | none => bScan v ws st
    | some dw =>
      let dv := (mapGet st.dist v).getD 0
      let st' :=
        if dw < 0 then
          { st with queue := st.queue ++ [w], dist := mapSet st.dist w (dv + 1) }
        else st
      let st'' :=
        if (mapGet st'.dist w).getD 0 = dv + 1 then
          { st' with
            sigma :=
              mapSet st'.sigma w
                ((mapGet st'.sigma w).getD 0 + (mapGet st'.sigma v).getD 0),
            preds :=
              mapSet st'.preds w ((mapGet st'.preds w).getD [] ++ [v]) }
        else st'
      bScan v ws st''

/-- The BFS `while` loop of Brandes' algorithm. -/
def bLoop (adj : AdjacencyList α) : ℕ → BrandesState α → BrandesState α
  | 0, st => st
  | fuel + 1, st =>
    match st.queue with
    | [] => st
    | v :: qrest =>
      let st1 := { st with queue := qrest, stack := v :: st.stack }
      match mapGet adj v with
      | none => bLoop adj fuel st1
      | some ns => bLoop adj fuel (bScan v ns st1)

/-- The predecessor loop of the accumulation phase: for each predecessor
`v` of `w`, add `sigma(v)/sigma(w) * (1 + delta(w))` to `delta(v)`. -/
def bAccumPreds (sigma : List (α × ℚ)) (w : α) :
    List α → List (α × ℚ) → List (α × ℚ)
  | [], delta => delta
  | v :: vs, delta =>
    let contribution :=
      ((mapGet sigma v).getD 0 / (mapGet sigma w).getD 0) *
        (1 + (mapGet delta w).getD 0)
    bAccumPreds sigma w vs
      (mapSet delta v ((mapGet delta v).getD 0 + contribution))

/-- The accumulation phase: pop the stack, fold the dependency of each
popped node into its predecessors, and add `delta(w)` to `bc(w)` for every
popped `w` other than the source. -/
def bAccum (source : α) (preds : List (α × List α)) (sigma : List (α × ℚ)) :
    List α → List (α × ℚ) → List (α × ℚ) → List (α × ℚ)
  | [], _, bc => bc
  | w :: stackRest, delta, bc =>
    let delta' := bAccumPreds sigma w ((mapGet preds w).getD []) delta
    let bc' :=
      if w ≠ source then
        mapSet bc w ((mapGet bc w).getD 0 + (mapGet delta' w).getD 0)
      else bc
    bAccum source preds sigma stackRest delta' bc'

/-- One iteration of the outer source loop of
`calculateBetweennessCentrality`.  The three initialization loops over
`nodes` build `predecessors`, `sigma` and `dist`; the BFS fuel
`nodes.length` dominates the pop count (the source is enqueued once and
every other node at most once, when its distance leaves `-1`). -/
def brandesSource (adj : AdjacencyList α) (nodes : List α)
    (bc : List (α × ℚ)) (source : α) : List (α × ℚ) :=
  let preds := initMapConst nodes ([] : List α)
  let sigma := mapSet (initMapConst nodes (0 : ℚ)) source 1
  let dist := mapSet (initMapConst nodes (-1 : ℤ)) source 0
  let st := bLoop adj nodes.length ⟨[], preds, sigma, dist, [source]⟩
  bAccum source st.preds st.sigma st.stack (initMapConst nodes (0 : ℚ)) bc

/-- `calculateBetweennessCentrality(adj)`: Brandes' algorithm from every
source, then every score halved (each undirected pair is counted from both
endpoints). -/
def calculateBetweennessCentrality (adj : AdjacencyList α) :
    List (α × ℚ) :=
  let nodes := mapKeys adj
  let bc := nodes.foldl (brandesSource adj nodes) (initMapConst nodes (0 : ℚ))
  bc.map (fun p => (p.1, p.2 / 2))

end Brandes

section Bridges

variable {α : Type} [DecidableEq α]

/-- The state of the bridge-finding DFS. -/
structure BridgeState (α : Type) where
  bridges : List (α × α)
  visited : List α
  disc : List (α × ℕ)
  low : List (α × ℕ)
  time : ℕ

/-- A pending call of the bridge DFS: `visit u parent` is the body of
`dfs(u, parent)` (mark, stamp, then walk the neighbours); `scan u parent ns`
is the neighbour loop of `dfs(u, parent)` with `ns` still to process. -/
inductive DfsCall (α : Type) where
  | visit : α → Option α → DfsCall α
  | scan : α → Option α → List α → DfsCall α

/-- The recursive `dfs(u, parent)` of `identifyBridges`, as one structural
recursion on fuel over explicit call descriptors.  `visit` marks `u`
visited, stamps its discovery/low values and starts the neighbour loop;
`scan` recurses into unvisited neighbours (folding `low` and detecting
bridges on return) and folds back-edges into `low` for visited non-parent
neighbours.  Fuel bounds the depth of the call tree; every `visit` is on
an unvisited node, so `2 * loopFuel adj` frames always suffice. -/
def dfsGo (adj : AdjacencyList α) : ℕ → DfsCall α → BridgeState α → BridgeState α
  | 0, _, st => st
  | fuel + 1, DfsCall.visit u parent, st =>
    let st1 : BridgeState α :=
      { st with
        visited := setAdd st.visited u,
        disc := mapSet st.disc u st.time,
        low := mapSet st.low u st.time,
        time := st.time + 1 }
    match mapGet adj u with
    | none => st1
    | some ns => dfsGo adj fuel (DfsCall.scan u parent ns) st1
  | _ + 1, DfsCall.scan _ _ [], st => st
  | fuel + 1, DfsCall.scan u parent (v :: vs), st =>
    let st1 :=
      if v ∈ st.visited then
        if some v ≠ parent then
          { st with
            low :=
              mapSet st.low u
                (min ((mapGet st.low u).getD 0) ((mapGet st.disc v).getD 0)) }
        else st
      else
        let st2 := dfsGo adj fuel (DfsCall.visit v (some u)) st
        let st3 :=
          { st2 with
            low :=
              mapSet st2.low u
                (min ((mapGet st2.low u).getD 0) ((mapGet st2.low v).getD 0)) }
        if (mapGet st3.disc u).getD 0 < (mapGet st3.low v).getD 0 then
          { st3 with bridges := st3.bridges ++ [(u, v)] }
        else st3
    dfsGo adj fuel (DfsCall.scan u parent vs) st1

/-- `identifyBridges(adj)`: Tarjan's bridge finding, one DFS from the
first node in insertion order. -/
def identifyBridges (adj : AdjacencyList α) : List (α × α) :=
  match mapKeys adj with
  | [] => []
  | n0 :: _ =>
    (dfsGo adj (2 * loopFuel adj) (DfsCall.visit n0 none) ⟨[], [], [], [], 0⟩).bridges

end Bridges

section Summary

variable {α : Type} [DecidableEq α]

/-- The neighbour loop of `isGraphConnected`. -/
def ccScan : List α → List α → List α → List α × List α
  | [], visited, queue => (visited, queue)
  | w :: ws, visited, queue =>
    if w ∈ visited then ccScan ws visited queue
    else ccScan ws (visited ++ [w]) (queue ++ [w])

/-- The BFS `while` loop of `isGraphConnected`, returning the visited set. -/
def ccLoop (adj : AdjacencyList α) : ℕ → List α → List α → List α
  | 0, _, visited => visited
  | _ + 1, [], visited => visited
  | fuel + 1, u :: qrest, visited =>
    match mapGet adj u with
    | none => ccLoop adj fuel qrest visited
    | some ns =>
      match ccScan ns visited qrest with
      | (visited', queue') => ccLoop adj fuel queue' visited'

/-- `isGraphConnected(adj)`: one BFS from the first node; connected iff it
visits as many nodes as there are keys. -/
def isGraphConnected (adj : AdjacencyList α) : Bool :=
  match mapKeys adj with
  | [] => true
  | n0 :: _ =>
    decide ((ccLoop adj (loopFuel adj) [n0] [n0]).length = (mapKeys adj).length)

/-- `countEdges(adj)`: half the sum of the neighbour-set sizes. -/
def countEdges (adj : AdjacencyList α) : ℚ :=
  ((adj.foldl (fun t p => t + p.2.length) 0 : ℕ) : ℚ) / 2

/-- `interface NetworkSummary`. -/
structure NetworkSummary where
  nodeCount : ℕ
  edgeCount : ℚ
  avgDegree : ℚ
  maxDegree : ℕ
  minDegree : ℕ
  diameter : ℕ∞
  globalClusteringCoefficient : ℚ
  isConnected : Bool

/-- `getNetworkSummary(adj)`. -/
def getNetworkSummary (adj : AdjacencyList α) : NetworkSummary :=
  let nodeCount := adj.length
  let edgeCount := countEdges adj
  if nodeCount = 0 then
    { nodeCount := 0, edgeCount := 0, avgDegree := 0, maxDegree := 0,
      minDegree := 0, diameter := 0, globalClusteringCoefficient := 0,
      isConnected := true }
  else
    let totalDegree : ℕ := adj.foldl (fun t p => t + p.2.length) 0
    let maxDegree := adj.foldl (fun t p => max t p.2.length) 0
    let minDegreeI : ℕ∞ := adj.foldl (fun t p => min t (p.2.length : ℕ∞)) ⊤
    { nodeCount := nodeCount, edgeCount := edgeCount,
      avgDegree := (totalDegree : ℚ) / (nodeCount : ℚ),
      maxDegree := maxDegree,
      minDegree := minDegreeI.untop' 0,
      diameter := calculateNetworkDiameter adj,
      globalClusteringCoefficient := calculateGlobalClusteringCoefficient adj,
      isConnected := isGraphConnected adj }

end Summary

section GraphML

/-- A scalar JavaScript value as a node attribute may hold one. -/
inductive JSValue where
  | undef : JSValue
  | nullv : JSValue
  | str : String → JSValue
  | num : ℚ → JSValue
  | boolean : Bool → JSValue
deriving DecidableEq

/-- A node with arbitrary named scalar attributes
(`GraphNode & Record<string, unknown>`). -/
structure AttrNode where
  id : String
  attrs : List (String × JSValue)

/-- `node[attr]`: an unbound attribute reads as `undefined`. -/
def attrGet (n : AttrNode) (a : String) : JSValue :=
  (mapGet n.attrs a).getD JSValue.undef

/-- `Number.isInteger` on the rational model of a JS number. -/
def numIsInteger (q : ℚ) : Bool := q.den = 1

/-- `String(value)`: the textual form of an attribute value.  The numeric
case uses the rational printer (JS float formatting is not modelled; no
verified property depends on the digits). -/
def jsString : JSValue → String
  | JSValue.undef => "undefined"
  | JSValue.nullv => "null"
  | JSValue.str s => s
  | JSValue.num q => toString q
  | JSValue.boolean b => if b then "true" else "false"

/-- Replace every occurrence of the character `c` by the string `t`
(`str.replace(/c/g, t)` for a single-character pattern). -/
def replaceChar (c : Char) (t : List Char) : List Char → List Char
  | [] => []
  | x :: xs => (if x = c then t else [x]) ++ replaceChar c t xs

/-- `escapeXml(str)`: the five global replacements, ampersand first. -/
def escapeXml (s : String) : String :=
  (replaceChar '\'' "&apos;".toList
    (replaceChar '"' "&quot;".toList
      (replaceChar '>' "&gt;".toList
        (replaceChar '<' "&lt;".toList
          (replaceChar '&' "&amp;".toList s.toList))))).asString

/-- `inferGraphMLType(nodes, attr)`: scan the nodes; the first attribute
value that is a number or a boolean decides the type (a string value does
not stop the scan); `"string"` if none is found. -/
def inferGraphMLType (nodes : List AttrNode) (attr : String) : String :=
  match nodes with
  | [] => "string"
  | n :: rest =>
    match attrGet n attr with
    | JSValue.num q => if numIsInteger q then "int" else "double"
    | JSValue.boolean _ => "boolean"
    | _ => inferGraphMLType rest attr

/-- The attribute-key collection loop of `exportToGraphML`: every key of
every node except `id`, in first-seen order. -/
def collectAttrs (nodes : List AttrNode) : List String :=
  nodes.foldl
    (fun acc n =>
      n.attrs.foldl
        (fun acc' p => if p.1 = "id" then acc' else setAdd acc' p.1) acc)
    []

/-- The fixed XML declaration and GraphML root lines. -/
def xmlHeader : List String :=
  ["<?xml version=\"1.0\" encoding=\"UTF-8\"?>",
   "<graphml xmlns=\"http://graphml.graphdrawing.org/xmlns\"",
   "  xmlns:xsi=\"http://www.w3.org/2001/XMLSchema-instance\"",
   "  xsi:schemaLocation=\"http://graphml.graphdrawing.org/xmlns",
   "    http://graphml.graphdrawing.org/xmlns/1.0/graphml.xsd\">"]

/-- One `<key>` declaration line. -/
def keyLine (nodes : List AttrNode) (attr : String) : String :=
  "  <key id=\"" ++ escapeXml attr ++ "\" for=\"node\" attr.name=\"" ++
    escapeXml attr ++ "\" attr.type=\"" ++ inferGraphMLType nodes attr ++ "\"/>"

/-- The `<data>` lines of one node: one per collected attribute whose value
on this node is neither `undefined` nor `null`. -/
def dataLines (n : AttrNode) : List String → List String
  | [] => []
  | a :: rest =>
    match attrGet n a with
    | JSValue.undef => dataLines n rest
    | JSValue.nullv => dataLines n rest
    | v =>
      ("      <data key=\"" ++ escapeXml a ++ "\">" ++
        escapeXml (jsString v) ++ "</data>") :: dataLines n rest

/-- The `<node>` elements. -/
def nodeLines (attrs : List String) : List AttrNode → List String
  | [] => []
  | n :: rest =>
    ("    <node id=\"" ++ escapeXml n.id ++ "\">") ::
      (dataLines n attrs ++ ["    </node>"] ++ nodeLines attrs rest)

/-- The auto-numbered `<edge>` elements. -/
def edgeLines (edgeId : ℕ) : List (GraphEdge String) → List String
  | [] => []
  | e :: rest =>
    ("    <edge id=\"e" ++ toString edgeId ++ "\" source=\"" ++
      escapeXml e.source ++ "\" target=\"" ++ escapeXml e.target ++ "\"/>") ::
      edgeLines (edgeId + 1) rest

/-- The lines of `exportToGraphML(nodes, edges)`, in emission order. -/
def exportLines (nodes : List AttrNode) (edges : List (GraphEdge String)) :
    List String :=
  xmlHeader ++ (collectAttrs nodes).map (keyLine nodes) ++
    ["  <graph id=\"G\" edgedefault=\"undirected\">"] ++
    nodeLines (collectAttrs nodes) nodes ++ edgeLines 0 edges ++
    ["  </graph>", "</graphml>"]

/-- `exportToGraphML(nodes, edges)`: the lines joined by newlines. -/
def exportToGraphML (nodes : List AttrNode) (edges : List (GraphEdge String)) :
    String :=
  String.intercalate "\n" (exportLines nodes edges)

/-- Specification-side single-pass XML escaping of one character, used to
state what `escapeXml` achieves: each of the five special characters maps
to its entity, every other character to itself. -/
def specEscapeChar (c : Char) : List Char :=
  if c = '&' then "&amp;".toList
  else if c = '<' then "&lt;".toList
  else if c = '>' then "&gt;".toList
  else if c = '"' then "&quot;".toList
  else if c = '\'' then "&apos;".toList
  else [c]

/-- Specification-side notion for the type-inference claim: the first
attribute value in node-list order that is neither `undefined` nor
`null`. -/
def firstNonNullValue (nodes : List AttrNode) (attr : String) :
    Option JSValue :=
  match nodes with
  | [] => none
  | n :: rest =>
    match attrGet n attr with
    | JSValue.undef => firstNonNullValue rest attr
    | JSValue.nullv => firstNonNullValue rest attr
    | v => some v

/-- The first attribute value in node-list order that is a number or a
boolean (what `inferGraphMLType` actually keys on). -/
def firstNumBoolValue (nodes : List AttrNode) (attr : String) :
    Option JSValue :=
  match nodes with
  | [] => none
  | n :: rest =>
    match attrGet n attr with
    | JSValue.num q => some (JSValue.num q)
    | JSValue.boolean b => some (JSValue.boolean b)
    | _ => firstNumBoolValue rest attr

/-- A list of characters contains `pat` as a contiguous run. -/
def containsSeq (pat : List Char) : List Char → Bool
  | [] => decide (pat = [])
  | c :: cs => pat.isPrefixOf (c :: cs) || containsSeq pat cs

end GraphML

section TestGraphs

variable {α : Type} [DecidableEq α]

/-- The canonical star graph: a hub adjacent to every spoke, each spoke
adjacent to the hub only. -/
def starAdj (hub : α) (spokes : List α) : AdjacencyList α :=
  (hub, spokes) :: spokes.map (fun s => (s, [hub]))

/-- The canonical complete graph on a list of ids: every node adjacent to
every other. -/
def completeAdj (ids : List α) : AdjacencyList α :=
  ids.map (fun x => (x, ids.filter (fun y => y ≠ x)))

/-- The six nodes of the two-triangle test graph. -/
def twoTriNodes : List (GraphNode String) :=
  [⟨"A1"⟩, ⟨"A2"⟩, ⟨"A3"⟩, ⟨"B1"⟩, ⟨"B2"⟩, ⟨"B3"⟩]

/-- Triangle `A1-A2-A3`, triangle `B1-B2-B3`, and the bridge `A3-B1`. -/
def twoTriEdges : List (GraphEdge String) :=
  [⟨"A1", "A2"⟩, ⟨"A2", "A3"⟩, ⟨"A3", "A1"⟩,
   ⟨"B1", "B2"⟩, ⟨"B2", "B3"⟩, ⟨"B3", "B1"⟩,
   ⟨"A3", "B1"⟩]

/-- The two-node list on which the first non-null value of attribute `a`
is the string `"x"` while a later value is the integer `3`. -/
def c5Nodes : List AttrNode :=
  [⟨"n1", [("a", JSValue.str "x")]⟩, ⟨"n2", [("a", JSValue.num 3)]⟩]

/-- The multiset of all ids appearing in some neighbour set: every id that
can be enqueued by a BFS step occurs in it. -/
def adjUniverse (adj : AdjacencyList α) : List α := (adj.map Prod.snd).flatten

end TestGraphs

section MapLemmas

variable {α : Type} [DecidableEq α] {β : Type}

@[simp] theorem mapGet_nil (a : α) : mapGet ([] : List (α × β)) a = none := rfl

theorem mapGet_cons (k : α) (v : β) (rest : List (α × β)) (a : α) :
    mapGet ((k, v) :: rest) a = if a = k then some v else mapGet rest a := rfl

@[simp] theorem mapGet_cons_self (k : α) (v : β) (rest : List (α × β)) :
    mapGet ((k, v) :: rest) k = some v := by simp [mapGet_cons]

theorem mapGet_cons_ne (k : α) (v : β) (rest : List (α × β)) (a : α)
    (h : a ≠ k) : mapGet ((k, v) :: rest) a = mapGet rest a := by
  simp [mapGet_cons, h]

theorem mapGet_mapSet_self (m : List (α × β)) (a : α) (b : β) :
    mapGet (mapSet m a b) a = some b := by
  induction m with
  | nil => simp [mapSet]
  | cons p rest ih =>
    obtain ⟨k, v⟩ := p
    by_cases h : a = k
    · subst h; simp [mapSet]
    · simp [mapSet, h, mapGet_cons, ih]

theorem mapGet_mapSet_ne (m : List (α × β)) (a x : α) (b : β) (h : x ≠ a) :
    mapGet (mapSet m a b) x = mapGet m x := by
  induction m with
  | nil => simp [mapSet, mapGet_cons, h]
  | cons p rest ih =>
    obtain ⟨k, v⟩ := p
    by_cases hk : a = k
    · subst hk
      simp [mapSet, mapGet_cons, h, ih]
    · by_cases hx : x = k
      · subst hx; simp [mapSet, hk]
      · simp [mapSet, hk, mapGet_cons, hx, ih]

theorem mapGet_mapSet (m : List (α × β)) (a x : α) (b : β) :
    mapGet (mapSet m a b) x = if x = a then some b else mapGet m x := by
  by_cases h : x = a
  · subst h; simp [mapGet_mapSet_self]
  · simp [h, mapGet_mapSet_ne m a x b h]

theorem mapKeys_mapSet (m : List (α × β)) (a : α) (b : β) :
    mapKeys (mapSet m a b) =
      if a ∈ mapKeys m then mapKeys m else mapKeys m ++ [a] := by
  induction m with
  | nil => simp [mapSet, mapKeys]
  | cons p rest ih =>
    obtain ⟨k, v⟩ := p
    by_cases h : a = k
    · subst h; simp [mapSet, mapKeys]
    · simp [mapSet, h, mapKeys, Ne.symm h] at ih ⊢
      rw [ih]
      by_cases hm : a ∈ List.map Prod.fst rest <;> simp [hm, h]

theorem mapGet_isSome_iff_mem_keys (m : List (α × β)) (a : α) :
    (mapGet m a).isSome = true ↔ a ∈ mapKeys m := by
  induction m with
  | nil => simp [mapKeys]
  | cons p rest ih =>
    obtain ⟨k, v⟩ := p
    by_cases h : a = k
    · subst h; simp [mapKeys]
    · rw [mapGet_cons_ne _ _ _ _ h, ih]
      simp [mapKeys, h]

theorem mapGet_eq_none_iff_not_mem_keys (m : List (α × β)) (a : α) :
    mapGet m a = none ↔ a ∉ mapKeys m := by
  rw [← mapGet_isSome_iff_mem_keys]
  cases mapGet m a <;> simp

end MapLemmas

section BuildLemmas

variable {α : Type} [DecidableEq α]

theorem mapKeys_addNeighbor (adj : AdjacencyList α) (k v : α) :
    mapKeys (addNeighbor adj k v) = mapKeys adj := by
  unfold addNeighbor
  cases h : mapGet adj k with
  | none => rfl
  | some s =>
    rw [mapKeys_mapSet]
    have : k ∈ mapKeys adj := by
      rw [← mapGet_isSome_iff_mem_keys, h]; rfl
    simp [this]

theorem mapKeys_addEdge (adj : AdjacencyList α) (e : GraphEdge α) :
    mapKeys (addEdge adj e) = mapKeys adj := by
  unfold addEdge
  rw [mapKeys_addNeighbor, mapKeys_addNeighbor]

theorem mapKeys_foldl_addEdge (edges : List (GraphEdge α)) (adj : AdjacencyList α) :
    mapKeys (edges.foldl addEdge adj) = mapKeys adj := by
  induction edges generalizing adj with
  | nil => rfl
  | cons e rest ih => rw [List.foldl_cons, ih, mapKeys_addEdge]

theorem mem_mapKeys_foldl_init (nodes : List (GraphNode α)) (m : AdjacencyList α)
    (a : α) :
    a ∈ mapKeys (nodes.foldl (fun m n => mapSet m n.id ([] : List α)) m) ↔
      a ∈ mapKeys m ∨ a ∈ nodes.map GraphNode.id := by
  induction nodes generalizing m with
  | nil => simp
  | cons n rest ih =>
    rw [List.foldl_cons, ih]
    rw [mapKeys_mapSet]
    by_cases h : n.id ∈ mapKeys m
    · simp only [if_pos h, List.map_cons, List.mem_cons]
      constructor
      · rintro (hm | hr)
        · exact Or.inl hm
        · exact Or.inr (Or.inr hr)
      · rintro (hm | ha | hr)
        · exact Or.inl hm
        · subst ha; exact Or.inl h
        · exact Or.inr hr
    · simp only [if_neg h, List.map_cons, List.mem_cons, List.mem_append,
        List.mem_singleton]
      tauto

end BuildLemmas

section ClaimC10

variable {α : Type} [DecidableEq α]

/-- C10: for every node list and every edge list (including edges whose
endpoints are absent from the node list), the key set of
`buildAdjacencyList nodes edges` is exactly the set of node ids of the
node list: every listed node is a key (bound to a possibly empty
neighbour set), and no edge creates a key for an absent endpoint. -/
theorem buildAdjacencyList_key_set (nodes : List (GraphNode α))
    (edges : List (GraphEdge α)) (a : α) :
    (∃ s, mapGet (buildAdjacencyList nodes edges) a = some s) ↔
      a ∈ nodes.map GraphNode.id := by
  have hmem : a ∈ mapKeys (buildAdjacencyList nodes edges) ↔
      a ∈ nodes.map GraphNode.id := by
    unfold buildAdjacencyList
    rw [mapKeys_foldl_addEdge]
    exact (mem_mapKeys_foldl_init nodes [] a).trans (by simp [mapKeys])
  rw [← hmem, ← mapGet_isSome_iff_mem_keys]
  cases mapGet (buildAdjacencyList nodes edges) a <;> simp

end ClaimC10

section ClusteringLemmas

variable {α : Type} [DecidableEq α]

theorem gccFoldl_spec (adj : AdjacencyList α) (l : List (α × List α))
    (p : ℚ × ℕ) :
    l.foldl
        (fun (p : ℚ × ℕ) e =>
          if 2 ≤ e.2.length then
            (p.1 + calculateClusteringCoefficient adj e.1, p.2 + 1)
          else p) p =
      (p.1 +
        ((l.filter fun e => 2 ≤ e.2.length).map
          fun e => calculateClusteringCoefficient adj e.1).sum,
       p.2 + (l.filter fun e => 2 ≤ e.2.length).length) := by
  induction l generalizing p with
  | nil => simp
  | cons e rest ih =>
    by_cases h : 2 ≤ e.2.length
    · simp [h, ih, add_assoc, Nat.add_comm]
    · simp [h, ih]

theorem mapGet_map_pairs {β : Type} (f : α → β) (l : List α) (x : α)
    (hx : x ∈ l) :
    mapGet (l.map fun z => (z, f z)) x = some (f x) := by
  induction l with
  | nil => cases hx
  | cons z rest ih =>
    by_cases h : x = z
    · subst h; simp [mapGet_cons]
    · rcases List.mem_cons.mp hx with h2 | h2
      · exact absurd h2 h
      · simp only [List.map_cons, mapGet_cons, if_neg h]
        exact ih h2

theorem mapGet_completeAdj (ids : List α) (x : α) (hx : x ∈ ids) :
    mapGet (completeAdj ids) x = some (ids.filter fun y => y ≠ x) := by
  unfold completeAdj
  exact mapGet_map_pairs (fun z => ids.filter fun y => y ≠ z) ids x hx

end ClusteringLemmas

section ClusteringLemmas2

variable {α : Type} [DecidableEq α]

theorem neighborHas_completeAdj (ids : List α) (a b : α) (ha : a ∈ ids)
    (hb : b ∈ ids) (hne : b ≠ a) :
    neighborHas (completeAdj ids) a b = true := by
  unfold neighborHas
  rw [mapGet_completeAdj ids a ha]
  simp [List.mem_filter, hb, hne]

theorem two_mul_add_pairs (r : ℕ) : 2 * r + r * (r - 1) = (r + 1) * r := by
  cases r with
  | zero => rfl
  | succ n => simp [Nat.succ_sub_one]; ring

theorem countAdjPairs_complete (ids : List α) (l : List α) (hnd : l.Nodup)
    (hsub : ∀ a ∈ l, a ∈ ids) :
    2 * countAdjPairs (completeAdj ids) l = l.length * (l.length - 1) := by
  induction l with
  | nil => simp [countAdjPairs]
  | cons x rest ih =>
    have hx := hsub x (List.mem_cons_self x rest)
    have hfull :
        rest.filter (fun y => neighborHas (completeAdj ids) x y) = rest := by
      apply List.filter_eq_self.mpr
      intro y hy
      have hyx : y ≠ x := fun h => (List.nodup_cons.mp hnd).1 (h ▸ hy)
      exact neighborHas_completeAdj ids x y hx
        (hsub y (List.mem_cons_of_mem _ hy)) hyx
    unfold countAdjPairs
    rw [hfull, Nat.mul_add,
      ih (List.nodup_cons.mp hnd).2 (fun a ha => hsub a (List.mem_cons_of_mem _ ha))]
    simp only [List.length_cons, Nat.add_sub_cancel]
    exact two_mul_add_pairs rest.length

theorem length_filter_ne (l : List α) (x : α) (hnd : l.Nodup) (hx : x ∈ l) :
    (l.filter fun y => y ≠ x).length = l.length - 1 := by
  induction l with
  | nil => cases hx
  | cons z rest ih =>
    by_cases h : x = z
    · subst h
      have hnot : x ∉ rest := (List.nodup_cons.mp hnd).1
      simp [List.filter_cons]
      intro a ha he
      exact hnot (he ▸ ha)
    · have hxr : x ∈ rest := by
        rcases List.mem_cons.mp hx with h2 | h2
        · exact absurd h2 h
        · exact h2
      have hpos : 0 < rest.length := List.length_pos.mpr (List.ne_nil_of_mem hxr)
      have hih := ih (List.nodup_cons.mp hnd).2 hxr
      have hzx : z ≠ x := fun he => h he.symm
      rw [List.filter_cons_of_pos (by simp [hzx])]
      simp only [List.length_cons, hih]
      omega

theorem clusteringCoefficient_of_get (adj : AdjacencyList α) (x : α)
    (ns : List α) (h : mapGet adj x = some ns) :
    calculateClusteringCoefficient adj x =
      if ns.length < 2 then 0
      else (countAdjPairs adj ns : ℚ) /
        ((ns.length : ℚ) * ((ns.length : ℚ) - 1) / 2) := by
  unfold calculateClusteringCoefficient
  rw [h]

theorem completeAdj_localCC (ids : List α) (hnd : ids.Nodup)
    (hk : 3 ≤ ids.length) (x : α) (hx : x ∈ ids) :
    calculateClusteringCoefficient (completeAdj ids) x = 1 := by
  rw [clusteringCoefficient_of_get (completeAdj ids) x _
    (mapGet_completeAdj ids x hx)]
  have hlen : (ids.filter fun y => y ≠ x).length = ids.length - 1 :=
    length_filter_ne ids x hnd hx
  have hk2 : 2 ≤ (ids.filter fun y => y ≠ x).length := by omega
  rw [if_neg (by omega)]
  have hpairs :=
    countAdjPairs_complete ids (ids.filter fun y => y ≠ x)
      (hnd.filter _) (fun a ha => (List.mem_filter.mp ha).1)
  set k := (ids.filter fun y => y ≠ x).length with hkdef
  have hcast : (countAdjPairs (completeAdj ids) (ids.filter fun y => y ≠ x) : ℚ) =
      (k : ℚ) * ((k : ℚ) - 1) / 2 := by
    have h1 : ((2 * countAdjPairs (completeAdj ids) (ids.filter fun y => y ≠ x) : ℕ) : ℚ) =
        ((k * (k - 1) : ℕ) : ℚ) := congrArg (fun n : ℕ => (n : ℚ)) hpairs
    push_cast [Nat.cast_sub (by omega : 1 ≤ k)] at h1
    linarith
  rw [hcast]
  have hk0 : (k : ℚ) ≠ 0 := by
    have : (0 : ℚ) < (k : ℚ) := by exact_mod_cast (by omega : 0 < k)
    exact ne_of_gt this
  have hk1 : (k : ℚ) - 1 ≠ 0 := by
    have : (1 : ℚ) < (k : ℚ) := by exact_mod_cast (by omega : 1 < k)
    linarith
  field_simp

theorem sum_map_one {β : Type} (l : List β) (f : β → ℚ)
    (h : ∀ e ∈ l, f e = 1) : (l.map f).sum = l.length := by
  induction l with
  | nil => simp
  | cons e rest ih =>
    simp only [List.map_cons, List.sum_cons, h e (List.mem_cons_self e rest),
      List.length_cons]
    rw [ih fun a ha => h a (List.mem_cons_of_mem _ ha)]
    push_cast
    ring

end ClusteringLemmas2

section ClaimC6

variable {α : Type} [DecidableEq α]

theorem completeAdj_gcc (ids : List α) (hnd : ids.Nodup)
    (hk : 3 ≤ ids.length) :
    calculateGlobalClusteringCoefficient (completeAdj ids) = 1 := by
  have hdeg : ∀ e ∈ completeAdj ids, 2 ≤ e.2.length := by
    intro e he
    unfold completeAdj at he
    rcases List.mem_map.mp he with ⟨z, hz, rfl⟩
    have := length_filter_ne ids z hnd hz
    simp only [this]
    omega
  have hfull : (completeAdj ids).filter (fun e => 2 ≤ e.2.length) =
      completeAdj ids :=
    List.filter_eq_self.mpr fun e he => decide_eq_true (hdeg e he)
  have hones : ∀ e ∈ completeAdj ids,
      calculateClusteringCoefficient (completeAdj ids) e.1 = 1 := by
    intro e he
    unfold completeAdj at he
    rcases List.mem_map.mp he with ⟨z, hz, rfl⟩
    exact completeAdj_localCC ids hnd hk z hz
  have hlen : (completeAdj ids).length = ids.length := by
    unfold completeAdj; simp
  have hpos : 0 < (completeAdj ids).length := by omega
  unfold calculateGlobalClusteringCoefficient
  simp only [gccFoldl_spec, hfull, zero_add, Nat.add_zero]
  rw [sum_map_one _ _ hones]
  simp only [if_pos hpos]
  rw [div_self (Nat.cast_ne_zero.mpr (by omega))]

/-- C6: the global clustering coefficient is the arithmetic mean of the
local coefficients over exactly the nodes of degree `≥ 2` (`0` when no
node qualifies), and on the complete graph on `k ≥ 3` distinct ids every
local coefficient is `1` and the global coefficient is `1`. -/
theorem globalClusteringCoefficient_spec :
    (∀ adj : AdjacencyList α,
      calculateGlobalClusteringCoefficient adj =
        if (adj.filter fun e => 2 ≤ e.2.length) = [] then 0
        else
          ((adj.filter fun e => 2 ≤ e.2.length).map
            fun e => calculateClusteringCoefficient adj e.1).sum /
          ((adj.filter fun e => 2 ≤ e.2.length).length : ℚ)) ∧
    (∀ ids : List α, ids.Nodup → 3 ≤ ids.length →
      (∀ x ∈ ids, calculateClusteringCoefficient (completeAdj ids) x = 1) ∧
      calculateGlobalClusteringCoefficient (completeAdj ids) = 1) := by
  constructor
  · intro adj
    unfold calculateGlobalClusteringCoefficient
    simp only [gccFoldl_spec, zero_add, Nat.add_zero]
    by_cases h : (adj.filter fun e => 2 ≤ e.2.length) = []
    · simp [h]
    · have hpos : 0 < (adj.filter fun e => 2 ≤ e.2.length).length :=
        List.length_pos.mpr h
      rw [if_pos hpos, if_neg h]
  · intro ids hnd hk
    exact ⟨fun x hx => completeAdj_localCC ids hnd hk x hx,
      completeAdj_gcc ids hnd hk⟩

/-- Witness for C6 on the complete graph over three ids. -/
theorem globalClusteringCoefficient_spec_witness :
    (["a", "b", "c"] : List String).Nodup ∧ 3 ≤ (["a", "b", "c"] : List String).length ∧
    calculateClusteringCoefficient (completeAdj ["a", "b", "c"]) "a" = 1 ∧
    calculateGlobalClusteringCoefficient (completeAdj ["a", "b", "c"]) = 1 := by
  have h := (globalClusteringCoefficient_spec (α := String)).2 ["a", "b", "c"]
    (by decide) (by decide)
  exact ⟨by decide, by decide, h.1 "a" (by decide), h.2⟩

end ClaimC6

section ClaimC7

variable {α : Type} [DecidableEq α]

theorem foldl_add_lengths (l : List (α × List α)) (n : ℕ) :
    l.foldl (fun t p => t + p.2.length) n = n + (l.map fun p => p.2.length).sum := by
  induction l generalizing n with
  | nil => simp
  | cons e rest ih => simp [ih, Nat.add_assoc]

theorem countEdges_eq_half_degree_sum (adj : AdjacencyList α) :
    countEdges adj = (((adj.map fun p => p.2.length).sum : ℕ) : ℚ) / 2 := by
  unfold countEdges
  rw [foldl_add_lengths]
  norm_num

/-- C7: for every adjacency model with a symmetric neighbour relation, the
network summary satisfies `edgeCount = (sum of all degrees) / 2` and, when
there is at least one node, `avgDegree = (sum of all degrees) / nodeCount`. -/
theorem networkSummary_degree_relations (adj : AdjacencyList α)
    (hsym : SymmetricAdj adj) :
    (getNetworkSummary adj).edgeCount =
      (((adj.map fun p => p.2.length).sum : ℕ) : ℚ) / 2 ∧
    (0 < (getNetworkSummary adj).nodeCount →
      (getNetworkSummary adj).avgDegree =
        (((adj.map fun p => p.2.length).sum : ℕ) : ℚ) /
          ((getNetworkSummary adj).nodeCount : ℚ)) := by
  by_cases h : adj.length = 0
  · rw [List.length_eq_zero] at h
    subst h
    constructor
    · simp [getNetworkSummary, countEdges]
    · intro hpos
      simp [getNetworkSummary] at hpos
  · constructor
    · simp only [getNetworkSummary, if_neg h]
      exact countEdges_eq_half_degree_sum adj
    · intro _
      simp only [getNetworkSummary, if_neg h]
      rw [foldl_add_lengths]
      norm_num

/-- Witness for C7 on the single-edge graph `a - b`. -/
theorem networkSummary_degree_relations_witness :
    (getNetworkSummary [("a", ["b"]), ("b", ["a"])]).edgeCount = 1 ∧
    (getNetworkSummary [("a", ["b"]), ("b", ["a"])]).avgDegree = 1 := by
  have hsym : SymmetricAdj [("a", ["b"]), ("b", ["a"])] := by
    intro a b hab
    rcases hab with ⟨ns, hget, hmem⟩
    by_cases ha : a = "a"
    · subst ha
      have hg : mapGet [("a", ["b"]), ("b", ["a"])] "a" = some ["b"] := by decide
      rw [hg] at hget
      have hns : ns = ["b"] := (Option.some_injective _ hget).symm
      subst hns
      have hb : b = "b" := by simpa using hmem
      subst hb
      exact ⟨["a"], by decide, by simp⟩
    · by_cases hb : a = "b"
      · subst hb
        have hg : mapGet [("a", ["b"]), ("b", ["a"])] "b" = some ["a"] := by decide
        rw [hg] at hget
        have hns : ns = ["a"] := (Option.some_injective _ hget).symm
        subst hns
        have hba : b = "a" := by simpa using hmem
        subst hba
        exact ⟨["b"], by decide, by simp⟩
      · exfalso
        have hg : mapGet [("a", ["b"]), ("b", ["a"])] a = none := by
          simp [mapGet, ha, hb]
        rw [hg] at hget
        cases hget
  have h := networkSummary_degree_relations [("a", ["b"]), ("b", ["a"])] hsym
  refine ⟨h.1.trans ?_, (h.2 (by decide)).trans ?_⟩
  · norm_num
  · norm_num [getNetworkSummary]

end ClaimC7

section ClaimC5

/-- Counterexample to C5 as stated: the first non-null, non-undefined
value of attribute `a` in node-list order is the string `"x"`, so the
claim predicts `attr.type = "string"`, but `inferGraphMLType` skips the
string and returns `"int"` from the later numeric value. -/
theorem inferGraphMLType_first_string_counterexample :
    firstNonNullValue c5Nodes "a" = some (JSValue.str "x") ∧
    inferGraphMLType c5Nodes "a" = "int" := by
  constructor <;> rfl

/-- C5 (amended): the `attr.type` computed by `inferGraphMLType` (and
declared in the `<key>` element of `exportToGraphML`) is decided by the
first value of the attribute, in node-list order, that is a number or a
boolean — `"int"` for an integral number, `"double"` otherwise,
`"boolean"` for a boolean — and is `"string"` when no numeric or boolean
value occurs; string, null and undefined values are skipped rather than
fixing the type. -/
theorem inferGraphMLType_spec (nodes : List AttrNode) (attr : String) :
    inferGraphMLType nodes attr =
      match firstNumBoolValue nodes attr with
      | some (JSValue.num q) => if numIsInteger q then "int" else "double"
      | some (JSValue.boolean _) => "boolean"
      | _ => "string" := by
  induction nodes with
  | nil => rfl
  | cons n rest ih =>
    unfold inferGraphMLType firstNumBoolValue
    cases attrGet n attr with
    | undef => exact ih
    | nullv => exact ih
    | str s => exact ih
    | num q => rfl
    | boolean b => rfl

end ClaimC5

section ClaimC8

theorem replaceChar_append (c : Char) (t xs ys : List Char) :
    replaceChar c t (xs ++ ys) = replaceChar c t xs ++ replaceChar c t ys := by
  induction xs with
  | nil => rfl
  | cons x xs ih => simp [replaceChar, ih, List.append_assoc]

theorem replaceChar_flatMap (c : Char) (t : List Char) (f : Char → List Char)
    (l : List Char) :
    replaceChar c t (l.flatMap f) =
      l.flatMap (fun x => replaceChar c t (f x)) := by
  induction l with
  | nil => rfl
  | cons x xs ih => simp [List.flatMap_cons, replaceChar_append, ih]

theorem replaceChar_eq_flatMap (c : Char) (t : List Char) (l : List Char) :
    replaceChar c t l = l.flatMap (fun x => if x = c then t else [x]) := by
  induction l with
  | nil => rfl
  | cons x xs ih => simp [replaceChar, ih, List.flatMap_cons]

theorem escape_chain_char (c : Char) :
    replaceChar '\'' "&apos;".toList
      (replaceChar '"' "&quot;".toList
        (replaceChar '>' "&gt;".toList
          (replaceChar '<' "&lt;".toList
            (if c = '&' then "&amp;".toList else [c])))) =
      specEscapeChar c := by
  by_cases h1 : c = '&'
  · subst h1; rfl
  · by_cases h2 : c = '<'
    · subst h2; rfl
    · by_cases h3 : c = '>'
      · subst h3; rfl
      · by_cases h4 : c = '"'
        · subst h4; rfl
        · by_cases h5 : c = '\''
          · subst h5; rfl
          · simp [replaceChar, specEscapeChar, h1, h2, h3, h4, h5]

theorem escapeXml_toList (s : String) :
    (escapeXml s).toList = s.toList.flatMap specEscapeChar := by
  unfold escapeXml
  rw [List.toList_asString]
  rw [replaceChar_eq_flatMap '&' "&amp;".toList]
  rw [replaceChar_flatMap, replaceChar_flatMap, replaceChar_flatMap,
    replaceChar_flatMap]
  exact congrArg _ (funext escape_chain_char)

theorem specEscapeChar_no_literal (c x : Char) (hx : x ∈ specEscapeChar c) :
    x ≠ '<' ∧ x ≠ '>' ∧ x ≠ '"' ∧ x ≠ '\'' := by
  unfold specEscapeChar at hx
  by_cases h1 : c = '&'
  · simp only [if_pos h1] at hx
    rw [show "&amp;".toList = ['&', 'a', 'm', 'p', ';'] from rfl] at hx
    fin_cases hx <;> exact ⟨by decide, by decide, by decide, by decide⟩
  · simp only [if_neg h1] at hx
    by_cases h2 : c = '<'
    · simp only [if_pos h2] at hx
      rw [show "&lt;".toList = ['&', 'l', 't', ';'] from rfl] at hx
      fin_cases hx <;> exact ⟨by decide, by decide, by decide, by decide⟩
    · simp only [if_neg h2] at hx
      by_cases h3 : c = '>'
      · simp only [if_pos h3] at hx
        rw [show "&gt;".toList = ['&', 'g', 't', ';'] from rfl] at hx
        fin_cases hx <;> exact ⟨by decide, by decide, by decide, by decide⟩
      · simp only [if_neg h3] at hx
        by_cases h4 : c = '"'
        · simp only [if_pos h4] at hx
          rw [show "&quot;".toList = ['&', 'q', 'u', 'o', 't', ';'] from rfl] at hx
          fin_cases hx <;> exact ⟨by decide, by decide, by decide, by decide⟩
        · simp only [if_neg h4] at hx
          by_cases h5 : c = '\''
          · simp only [if_pos h5] at hx
            rw [show "&apos;".toList = ['&', 'a', 'p', 'o', 's', ';'] from rfl] at hx
            fin_cases hx <;> exact ⟨by decide, by decide, by decide, by decide⟩
          · simp only [if_neg h5, List.mem_singleton] at hx
            subst hx
            exact ⟨h2, h3, h4, h5⟩

/-- C8: `exportToGraphML` on empty node and edge lists emits the
`<graph>` opening and `</graph>` closing lines and no `<node>` or
`<edge>` element; and `escapeXml` (applied to every attribute value
emitted in a `<data>` element) rewrites each of `& < > " '` to its XML
entity — its output is exactly the entity encoding of the input, and no
literal `<`, `>`, `"` or `'` (and no `&` other than one opening an
emitted entity) remains. -/
theorem exportGraphML_empty_and_escaping :
    ("  <graph id=\"G\" edgedefault=\"undirected\">" ∈
        exportLines ([] : List AttrNode) ([] : List (GraphEdge String)) ∧
     "  </graph>" ∈
        exportLines ([] : List AttrNode) ([] : List (GraphEdge String)) ∧
     ∀ l ∈ exportLines ([] : List AttrNode) ([] : List (GraphEdge String)),
       containsSeq "<node".toList l.toList = false ∧
       containsSeq "<edge".toList l.toList = false) ∧
    ∀ s : String,
      (escapeXml s).toList = s.toList.flatMap specEscapeChar ∧
      ∀ c ∈ (escapeXml s).toList,
        c ≠ '<' ∧ c ≠ '>' ∧ c ≠ '"' ∧ c ≠ '\'' := by
  refine ⟨⟨by decide, by decide, by decide⟩, fun s => ⟨escapeXml_toList s, ?_⟩⟩
  intro c hc
  rw [escapeXml_toList s] at hc
  rcases List.mem_flatMap.mp hc with ⟨x, _, hmem⟩
  exact specEscapeChar_no_literal x c hmem

/-- Witness for C8: the closing-graph line of the empty export contains no
node element, and a concrete string is escaped to entities. -/
theorem exportGraphML_empty_and_escaping_witness :
    containsSeq "<node".toList ("  </graph>").toList = false ∧
    (escapeXml "A<&").toList = "A&lt;&amp;".toList := by
  constructor
  · exact (exportGraphML_empty_and_escaping.1.2.2 "  </graph>" (by decide)).1
  · exact ((exportGraphML_empty_and_escaping.2 "A<&").1).trans (by decide)

end ClaimC8

section ClaimC2

/-- C2: on the graph built from the six nodes and seven edges of the
two-triangle figure (`A1-A2-A3`, `B1-B2-B3`, joined by `A3-B1`),
`identifyBridges` returns exactly one edge, and its endpoint pair is
`(A3, B1)`. -/
theorem identifyBridges_twoTriangles :
    identifyBridges (buildAdjacencyList twoTriNodes twoTriEdges) =
      [("A3", "B1")] := by
  decide

end ClaimC2

section ClaimC9

variable {α : Type} [DecidableEq α]

theorem dfsGo_bridges_reachable (adj : AdjacencyList α) (start : α) :
    ∀ (fuel : ℕ) (call : DfsCall α) (st : BridgeState α),
      (match call with
       | DfsCall.visit u _ => Reaches adj start u
       | DfsCall.scan u _ ns =>
           Reaches adj start u ∧ ∀ v ∈ ns, adjStep adj u v) →
      (∀ p ∈ st.bridges, Reaches adj start p.1 ∧ Reaches adj start p.2) →
      ∀ p ∈ (dfsGo adj fuel call st).bridges,
        Reaches adj start p.1 ∧ Reaches adj start p.2 := by
  intro fuel
  induction fuel with
  | zero =>
    intro call st _ hbr
    simpa [dfsGo] using hbr
  | succ fuel ih =>
    intro call st hpre hbr
    match call with
    | DfsCall.visit u parent =>
      rw [dfsGo]
      cases hget : mapGet adj u with
      | none => simpa using hbr
      | some ns =>
        simp only []
        apply ih (DfsCall.scan u parent ns)
        · exact ⟨hpre, fun v hv => ⟨ns, hget, hv⟩⟩
        · simpa using hbr
    | DfsCall.scan u parent [] =>
      rw [dfsGo]
      exact hbr
    | DfsCall.scan u parent (v :: vs) =>
      rw [dfsGo]
      obtain ⟨hru, hstep⟩ := hpre
      have hrv : Reaches adj start v :=
        Relation.ReflTransGen.tail hru (hstep v (List.mem_cons_self v vs))
      by_cases hvis : v ∈ st.visited
      · simp only [if_pos hvis]
        apply ih (DfsCall.scan u parent vs)
        · exact ⟨hru, fun w hw => hstep w (List.mem_cons_of_mem v hw)⟩
        · split
          · exact hbr
          · exact hbr
      · simp only [if_neg hvis]
        apply ih (DfsCall.scan u parent vs)
        · exact ⟨hru, fun w hw => hstep w (List.mem_cons_of_mem v hw)⟩
        · have hbr2 := ih (DfsCall.visit v (some u)) st hrv hbr
          split
          · intro p hp
            rcases List.mem_append.mp hp with hp | hp
            · exact hbr2 p hp
            · rcases List.mem_singleton.mp hp with rfl
              exact ⟨hru, hrv⟩
          · intro p hp
            exact hbr2 p hp

/-- C9: every edge pair returned by `identifyBridges` has both endpoints
reachable from the first node in the adjacency model's insertion order;
a bridge lying in a component that does not contain that first node is
never reported. -/
theorem identifyBridges_reachable (adj : AdjacencyList α) (n0 : α)
    (rest : List α) (h : mapKeys adj = n0 :: rest) :
    ∀ p ∈ identifyBridges adj, Reaches adj n0 p.1 ∧ Reaches adj n0 p.2 := by
  unfold identifyBridges
  rw [h]
  exact dfsGo_bridges_reachable adj n0 (2 * loopFuel adj)
    (DfsCall.visit n0 none) ⟨[], [], [], [], 0⟩
    Relation.ReflTransGen.refl (by simp)

/-- Witness for C9 on the single-edge graph `a - b`, whose unique bridge
is `(a, b)`. -/
theorem identifyBridges_reachable_witness :
    Reaches [("a", ["b"]), ("b", ["a"])] "a" "a" ∧
    Reaches [("a", ["b"]), ("b", ["a"])] "a" "b" :=
  identifyBridges_reachable [("a", ["b"]), ("b", ["a"])] "a" ["b"] (by decide)
    ("a", "b") (by decide)

end ClaimC9

section BfsMachinery

variable {α : Type} [DecidableEq α] {β : Type}

theorem mapGet_mem (m : List (α × β)) (a : α) (b : β)
    (h : mapGet m a = some b) : (a, b) ∈ m := by
  induction m with
  | nil => cases h
  | cons p rest ih =>
    obtain ⟨k, v⟩ := p
    by_cases hk : a = k
    · subst hk
      simp only [mapGet_cons_self, Option.some_injective] at h
      cases h
      exact List.mem_cons_self _ _
    · rw [mapGet_cons_ne _ _ _ _ hk] at h
      exact List.mem_cons_of_mem _ (ih h)

theorem mapGet_of_mem_nodup (m : List (α × β)) (a : α) (b : β)
    (hmem : (a, b) ∈ m) (hnd : (mapKeys m).Nodup) : mapGet m a = some b := by
  induction m with
  | nil => cases hmem
  | cons p rest ih =>
    obtain ⟨k, v⟩ := p
    rcases List.mem_cons.mp hmem with h | h
    · cases h
      exact mapGet_cons_self _ _ _
    · have hk : a ≠ k := by
        rintro rfl
        exact (List.nodup_cons.mp hnd).1
          (List.mem_map.mpr ⟨(a, b), h, rfl⟩)
      rw [mapGet_cons_ne _ _ _ _ hk]
      exact ih h (List.nodup_cons.mp hnd).2

theorem mapKeys_nodup_mapSet (m : List (α × β)) (a : α) (b : β)
    (hnd : (mapKeys m).Nodup) : (mapKeys (mapSet m a b)).Nodup := by
  rw [mapKeys_mapSet]
  by_cases h : a ∈ mapKeys m
  · simpa [h] using hnd
  · simp only [if_neg h]
    simpa [List.nodup_append, h] using hnd

theorem mapGet_foldl_mapSet_valfun (keys : List α) (f : α → β)
    (m0 : List (α × β)) (x : α) :
    mapGet (keys.foldl (fun m k => mapSet m k (f k)) m0) x =
      if x ∈ keys then some (f x) else mapGet m0 x := by
  induction keys generalizing m0 with
  | nil => simp
  | cons k ks ih =>
    rw [List.foldl_cons, ih]
    by_cases hks : x ∈ ks
    · simp [hks, List.mem_cons]
    · by_cases hk : x = k
      · subst hk
        simp [hks, mapGet_mapSet_self]
      · simp [hks, hk, List.mem_cons, mapGet_mapSet_ne _ _ _ _ hk]

theorem mapKeys_nodup_foldl_mapSet (keys : List α) (f : α → β)
    (m0 : List (α × β)) (hnd : (mapKeys m0).Nodup) :
    (mapKeys (keys.foldl (fun m k => mapSet m k (f k)) m0)).Nodup := by
  induction keys generalizing m0 with
  | nil => exact hnd
  | cons k ks ih =>
    rw [List.foldl_cons]
    exact ih _ (mapKeys_nodup_mapSet m0 k (f k) hnd)

theorem mapGet_initDistances (adj : AdjacencyList α) (source x : α) :
    mapGet (initDistances adj source) x =
      if x ∈ mapKeys adj then some (if x = source then (0 : ℕ∞) else ⊤)
      else none := by
  unfold initDistances
  rw [mapGet_foldl_mapSet_valfun (mapKeys adj)
    (fun k => if k = source then (0 : ℕ∞) else ⊤) [] x]
  rfl

theorem mapKeys_nodup_initDistances (adj : AdjacencyList α) (source : α) :
    (mapKeys (initDistances adj source)).Nodup := by
  unfold initDistances
  exact mapKeys_nodup_foldl_mapSet _ _ [] (by simp [mapKeys])

theorem mem_adjUniverse (adj : AdjacencyList α) (u : α) (ns : List α)
    (hget : mapGet adj u = some ns) (x : α) (hx : x ∈ ns) :
    x ∈ adjUniverse adj := by
  unfold adjUniverse
  rw [List.mem_flatten]
  exact ⟨ns, List.mem_map.mpr ⟨(u, ns), mapGet_mem adj u ns hget, rfl⟩, hx⟩

theorem adjUniverse_length (adj : AdjacencyList α) :
    (adjUniverse adj).length = (adj.map (fun p => p.2.length)).sum := by
  unfold adjUniverse
  rw [List.length_flatten, List.map_map]
  rfl

end BfsMachinery

section BfsScanSpec

variable {α : Type} [DecidableEq α]

theorem bfsScan_spec (d1 : ℕ∞) (ws : List α) :
    ∀ (visited : List α) (dist : List (α × ℕ∞)) (queue : List α),
      ∃ (fresh : List α) (dist' : List (α × ℕ∞)),
        bfsScan d1 ws visited dist queue =
          (visited ++ fresh, dist', queue ++ fresh) ∧
        fresh.Nodup ∧
        (∀ x ∈ fresh, x ∈ ws ∧ x ∉ visited) ∧
        (∀ x ∈ ws, x ∉ visited → x ∈ fresh) ∧
        (∀ x, mapGet dist' x = if x ∈ fresh then some d1 else mapGet dist x) ∧
        ((mapKeys dist).Nodup → (mapKeys dist').Nodup) := by
  induction ws with
  | nil =>
    intro visited dist queue
    exact ⟨[], dist, by simp [bfsScan], by simp, by simp, by simp,
      fun x => by simp, fun h => h⟩
  | cons w ws ih =>
    intro visited dist queue
    by_cases hw : w ∈ visited
    · obtain ⟨fresh, dist', heq, hnd, hmem, hcompl, hchar, hkeys⟩ :=
        ih visited dist queue
      refine ⟨fresh, dist', ?_, hnd, ?_, ?_, hchar, hkeys⟩
      · simpa [bfsScan, hw] using heq
      · exact fun x hx => ⟨List.mem_cons_of_mem _ (hmem x hx).1, (hmem x hx).2⟩
      · intro x hx hxv
        rcases List.mem_cons.mp hx with rfl | hx2
        · exact absurd hw hxv
        · exact hcompl x hx2 hxv
    · obtain ⟨fresh, dist', heq, hnd, hmem, hcompl, hchar, hkeys⟩ :=
        ih (visited ++ [w]) (mapSet dist w d1) (queue ++ [w])
      have hwf : w ∉ fresh := fun hwf =>
        (hmem w hwf).2 (List.mem_append.mpr (Or.inr (List.mem_singleton.mpr rfl)))
      refine ⟨w :: fresh, dist', ?_, ?_, ?_, ?_, ?_, ?_⟩
      · rw [show bfsScan d1 (w :: ws) visited dist queue =
            bfsScan d1 ws (visited ++ [w]) (mapSet dist w d1) (queue ++ [w]) by
            simp [bfsScan, hw]]
        rw [heq]
        simp
      · exact List.nodup_cons.mpr ⟨hwf, hnd⟩
      · intro x hx
        rcases List.mem_cons.mp hx with rfl | hx2
        · exact ⟨List.mem_cons_self _ _, hw⟩
        · refine ⟨List.mem_cons_of_mem _ (hmem x hx2).1, fun hxv => ?_⟩
          exact (hmem x hx2).2 (List.mem_append.mpr (Or.inl hxv))
      · intro x hx hxv
        rcases List.mem_cons.mp hx with rfl | hx2
        · exact List.mem_cons_self _ _
        · by_cases hxw : x = w
          · subst hxw; exact List.mem_cons_self _ _
          · refine List.mem_cons_of_mem _ (hcompl x hx2 ?_)
            intro hmem2
            rcases List.mem_append.mp hmem2 with h | h
            · exact hxv h
            · exact hxw (List.mem_singleton.mp h)
      · intro x
        rw [hchar x]
        by_cases hxf : x ∈ fresh
        · simp [hxf, List.mem_cons_of_mem _ hxf]
        · by_cases hxw : x = w
          · subst hxw
            simp [hxf, mapGet_mapSet_self]
          · simp [hxf, hxw, mapGet_mapSet_ne _ _ _ _ hxw]
      · exact fun h => hkeys (mapKeys_nodup_mapSet dist w d1 h)

end BfsScanSpec

section BfsLoopLemmas

variable {α : Type} [DecidableEq α]

theorem reaches_mem_closed (adj : AdjacencyList α) (source : α)
    (visited : List α) (hsrc : source ∈ visited)
    (hclosed : ∀ v ∈ visited, ∀ ns, mapGet adj v = some ns →
      ∀ w ∈ ns, w ∈ visited) :
    ∀ x, Reaches adj source x → x ∈ visited := by
  intro x hx
  induction hx with
  | refl => exact hsrc
  | tail _ h2 ih =>
    rcases h2 with ⟨ns, hget, hw⟩
    exact hclosed _ ih ns hget _ hw

theorem bfsLoop_unreachable_unchanged (adj : AdjacencyList α) (source : α) :
    ∀ (fuel : ℕ) (queue visited : List α) (dist : List (α × ℕ∞)),
      (∀ u ∈ queue, u ∈ visited) →
      (∀ v ∈ visited, Reaches adj source v) →
      ∀ x, ¬ Reaches adj source x →
        mapGet (bfsLoop adj fuel queue visited dist) x = mapGet dist x := by
  intro fuel
  induction fuel with
  | zero => intro queue visited dist _ _ x _; rfl
  | succ fuel ih =>
    intro queue visited dist hq hr x hx
    match queue with
    | [] => rfl
    | u :: qrest =>
      have hu : u ∈ visited := hq u (List.mem_cons_self u qrest)
      simp only [bfsLoop]
      cases hget : mapGet adj u with
      | none =>
        exact ih qrest visited dist
          (fun v hv => hq v (List.mem_cons_of_mem _ hv)) hr x hx
      | some ns =>
        obtain ⟨fresh, dist', heq, hnd, hmem, hcompl, hchar, hkeys⟩ :=
          bfsScan_spec ((mapGet dist u).getD ⊤ + 1) ns visited dist qrest
        dsimp only
        rw [heq]
        have hr' : ∀ v ∈ visited ++ fresh, Reaches adj source v := by
          intro v hv
          rcases List.mem_append.mp hv with hv | hv
          · exact hr v hv
          · exact Relation.ReflTransGen.tail (hr u hu)
              ⟨ns, hget, (hmem v hv).1⟩
        have hq' : ∀ v ∈ qrest ++ fresh, v ∈ visited ++ fresh := by
          intro v hv
          rcases List.mem_append.mp hv with hv | hv
          · exact List.mem_append.mpr
              (Or.inl (hq v (List.mem_cons_of_mem _ hv)))
          · exact List.mem_append.mpr (Or.inr hv)
        rw [ih (qrest ++ fresh) (visited ++ fresh) dist' hq' hr' x hx]
        rw [hchar x]
        have hxf : x ∉ fresh := fun hxf =>
          hx (hr' x (List.mem_append.mpr (Or.inr hxf)))
        simp [hxf]

theorem bfsLoop_reach_ne_top (adj : AdjacencyList α) (source : α) :
    ∀ (fuel : ℕ) (queue visited : List α) (dist : List (α × ℕ∞)),
      queue.length + ((adjUniverse adj).toFinset \ visited.toFinset).card ≤ fuel →
      (∀ u ∈ queue, u ∈ visited) →
      source ∈ visited →
      (∀ v ∈ visited, ∃ d, mapGet dist v = some d ∧ d ≠ ⊤) →
      (∀ v ∈ visited, v ∈ queue ∨
        ∀ ns, mapGet adj v = some ns → ∀ w ∈ ns, w ∈ visited) →
      ∀ x, Reaches adj source x →
        ∃ d, mapGet (bfsLoop adj fuel queue visited dist) x = some d ∧ d ≠ ⊤ := by
  intro fuel
  induction fuel with
  | zero =>
    intro queue visited dist hfuel hq hsrc hfin hcl x hx
    have hqnil : queue = [] := List.length_eq_zero.mp (by omega)
    subst hqnil
    have hclosed : ∀ v ∈ visited, ∀ ns, mapGet adj v = some ns →
        ∀ w ∈ ns, w ∈ visited := by
      intro v hv
      rcases hcl v hv with h | h
      · cases h
      · exact h
    exact hfin x (reaches_mem_closed adj source visited hsrc hclosed x hx)
  | succ fuel ih =>
    intro queue visited dist hfuel hq hsrc hfin hcl x hx
    match queue with
    | [] =>
      have hclosed : ∀ v ∈ visited, ∀ ns, mapGet adj v = some ns →
          ∀ w ∈ ns, w ∈ visited := by
        intro v hv
        rcases hcl v hv with h | h
        · cases h
        · exact h
      exact hfin x (reaches_mem_closed adj source visited hsrc hclosed x hx)
    | u :: qrest =>
      have hu : u ∈ visited := hq u (List.mem_cons_self u qrest)
      simp only [bfsLoop]
      cases hget : mapGet adj u with
      | none =>
        refine ih qrest visited dist ?_
          (fun v hv => hq v (List.mem_cons_of_mem _ hv)) hsrc hfin ?_ x hx
        · simp only [List.length_cons] at hfuel
          omega
        · intro v hv
          rcases hcl v hv with h | h
          · rcases List.mem_cons.mp h with rfl | h2
            · right
              intro ns hns
              rw [hget] at hns
              cases hns
            · exact Or.inl h2
          · exact Or.inr h
      | some ns =>
        obtain ⟨fresh, dist', heq, hnd, hmem, hcompl, hchar, hkeys⟩ :=
          bfsScan_spec ((mapGet dist u).getD ⊤ + 1) ns visited dist qrest
        dsimp only
        rw [heq]
        have hfreshU : ∀ y ∈ fresh, y ∈ adjUniverse adj := fun y hy =>
          mem_adjUniverse adj u ns hget y (hmem y hy).1
        have hfreshV : ∀ y ∈ fresh, y ∉ visited := fun y hy => (hmem y hy).2
        have hset : (adjUniverse adj).toFinset \ (visited ++ fresh).toFinset =
            ((adjUniverse adj).toFinset \ visited.toFinset) \ fresh.toFinset := by
          ext y
          simp only [Finset.mem_sdiff, List.mem_toFinset, List.mem_append]
          tauto
        have hsub : fresh.toFinset ⊆
            (adjUniverse adj).toFinset \ visited.toFinset := by
          intro y hy
          rw [List.mem_toFinset] at hy
          rw [Finset.mem_sdiff, List.mem_toFinset, List.mem_toFinset]
          exact ⟨hfreshU y hy, hfreshV y hy⟩
        have hcardF : fresh.toFinset.card = fresh.length :=
          List.toFinset_card_of_nodup hnd
        have hcard :
            ((adjUniverse adj).toFinset \ (visited ++ fresh).toFinset).card =
              ((adjUniverse adj).toFinset \ visited.toFinset).card -
                fresh.length := by
          rw [hset, Finset.card_sdiff hsub, hcardF]
        have hfl : fresh.length ≤
            ((adjUniverse adj).toFinset \ visited.toFinset).card := by
          rw [← hcardF]
          exact Finset.card_le_card hsub
        obtain ⟨du, hdu, hdune⟩ := hfin u hu
        have hd1ne : (mapGet dist u).getD ⊤ + 1 ≠ ⊤ := by
          rw [hdu]
          simp only [Option.getD_some]
          exact WithTop.add_ne_top.mpr ⟨hdune, WithTop.one_ne_top⟩
        have hq' : ∀ v ∈ qrest ++ fresh, v ∈ visited ++ fresh := by
          intro v hv
          rcases List.mem_append.mp hv with hv | hv
          · exact List.mem_append.mpr
              (Or.inl (hq v (List.mem_cons_of_mem _ hv)))
          · exact List.mem_append.mpr (Or.inr hv)
        refine ih (qrest ++ fresh) (visited ++ fresh) dist' ?_ hq'
          (List.mem_append.mpr (Or.inl hsrc)) ?_ ?_ x hx
        · simp only [List.length_append, List.length_cons] at hfuel ⊢
          rw [hcard]
          omega
        · intro v hv
          rcases List.mem_append.mp hv with hv | hv
          · obtain ⟨d, hd, hdne⟩ := hfin v hv
            refine ⟨d, ?_, hdne⟩
            rw [hchar v, if_neg (fun hvf => (hmem v hvf).2 hv)]
            exact hd
          · exact ⟨(mapGet dist u).getD ⊤ + 1,
              by rw [hchar v, if_pos hv], hd1ne⟩
        · intro v hv
          rcases List.mem_append.mp hv with hv | hv
          · rcases hcl v hv with h | h
            · rcases List.mem_cons.mp h with rfl | h2
              · right
                intro ns' hns' w hw
                have hns2 : ns' = ns := by
                  rw [hget] at hns'
                  exact Option.some_injective _ hns'.symm
                subst hns2
                by_cases hwv : w ∈ visited
                · exact List.mem_append.mpr (Or.inl hwv)
                · exact List.mem_append.mpr (Or.inr (hcompl w hw hwv))
              · exact Or.inl (List.mem_append.mpr (Or.inl h2))
            · right
              intro ns' hns' w hw
              exact List.mem_append.mpr (Or.inl (h ns' hns' w hw))
          · exact Or.inl (List.mem_append.mpr (Or.inr hv))

end BfsLoopLemmas

section DiameterLemmas

variable {α : Type} [DecidableEq α]

theorem bfsLoop_keys_nodup (adj : AdjacencyList α) :
    ∀ (fuel : ℕ) (queue visited : List α) (dist : List (α × ℕ∞)),
      (mapKeys dist).Nodup →
      (mapKeys (bfsLoop adj fuel queue visited dist)).Nodup := by
  intro fuel
  induction fuel with
  | zero => intro _ _ _ h; exact h
  | succ fuel ih =>
    intro queue visited dist h
    match queue with
    | [] => exact h
    | u :: qrest =>
      simp only [bfsLoop]
      cases hget : mapGet adj u with
      | none => exact ih qrest visited dist h
      | some ns =>
        obtain ⟨fresh, dist', heq, _, _, _, _, hkeys⟩ :=
          bfsScan_spec ((mapGet dist u).getD ⊤ + 1) ns visited dist qrest
        dsimp only
        rw [heq]
        exact ih _ _ _ (hkeys h)

theorem bfsDistances_reach_ne_top (adj : AdjacencyList α) (source : α)
    (hsk : source ∈ mapKeys adj) (x : α) (hx : Reaches adj source x) :
    ∃ d, mapGet (bfsDistances adj source) x = some d ∧ d ≠ ⊤ := by
  unfold bfsDistances
  refine bfsLoop_reach_ne_top adj source (loopFuel adj) [source] [source]
    (initDistances adj source) ?_ (fun u hu => hu)
    (List.mem_singleton.mpr rfl) ?_ ?_ x hx
  · unfold loopFuel
    have h1 : ((adjUniverse adj).toFinset \ [source].toFinset).card ≤
        (adjUniverse adj).toFinset.card :=
      Finset.card_le_card (Finset.sdiff_subset)
    have h2 : (adjUniverse adj).toFinset.card ≤ (adjUniverse adj).length :=
      List.toFinset_card_le _
    have h3 := adjUniverse_length adj
    simp only [List.length_singleton]
    omega
  · intro v hv
    rcases List.mem_singleton.mp hv with rfl
    refine ⟨0, ?_, ?_⟩
    · rw [mapGet_initDistances]
      simp [hsk]
    · exact WithTop.zero_ne_top
  · intro v hv
    exact Or.inl hv

theorem bfsDistances_unreachable (adj : AdjacencyList α) (source : α)
    (x : α) (hx : ¬ Reaches adj source x) :
    mapGet (bfsDistances adj source) x = mapGet (initDistances adj source) x := by
  unfold bfsDistances
  refine bfsLoop_unreachable_unchanged adj source (loopFuel adj) [source]
    [source] (initDistances adj source) (fun u hu => hu) ?_ x hx
  intro v hv
  rcases List.mem_singleton.mp hv with rfl
  exact Relation.ReflTransGen.refl

theorem bfsDistances_keys_nodup (adj : AdjacencyList α) (source : α) :
    (mapKeys (bfsDistances adj source)).Nodup := by
  unfold bfsDistances
  exact bfsLoop_keys_nodup adj (loopFuel adj) [source] [source]
    (initDistances adj source) (mapKeys_nodup_initDistances adj source)

theorem bfsDistances_top_iff (adj : AdjacencyList α) (source : α)
    (hsk : source ∈ mapKeys adj) :
    (∃ p ∈ bfsDistances adj source, p.2 = ⊤) ↔
      ∃ t ∈ mapKeys adj, ¬ Reaches adj source t := by
  constructor
  · rintro ⟨⟨x, d⟩, hp, hd⟩
    subst hd
    have hget : mapGet (bfsDistances adj source) x = some ⊤ :=
      mapGet_of_mem_nodup _ x ⊤ hp (bfsDistances_keys_nodup adj source)
    have hnr : ¬ Reaches adj source x := by
      intro hr
      obtain ⟨d, hd, hdne⟩ := bfsDistances_reach_ne_top adj source hsk x hr
      rw [hget] at hd
      exact hdne (Option.some_injective _ hd.symm)
    have hinit := bfsDistances_unreachable adj source x hnr
    rw [hget, mapGet_initDistances] at hinit
    by_cases hxk : x ∈ mapKeys adj
    · exact ⟨x, hxk, hnr⟩
    · rw [if_neg hxk] at hinit
      cases hinit
  · rintro ⟨t, htk, hnr⟩
    have hts : t ≠ source := by
      rintro rfl
      exact hnr Relation.ReflTransGen.refl
    have hinit := bfsDistances_unreachable adj source t hnr
    rw [mapGet_initDistances, if_pos htk, if_neg hts] at hinit
    exact ⟨(t, ⊤), mapGet_mem _ t ⊤ hinit, rfl⟩

theorem diamScan_eq_none_iff (l : List (α × ℕ∞)) (m : ℕ∞) :
    diamScan l m = none ↔ ∃ p ∈ l, p.2 = ⊤ := by
  induction l generalizing m with
  | nil => simp [diamScan]
  | cons p rest ih =>
    obtain ⟨a, d⟩ := p
    by_cases hd : d = ⊤
    · subst hd
      simp [diamScan]
    · simp only [diamScan, if_neg hd, ih]
      constructor
      · rintro ⟨q, hq, hqt⟩
        exact ⟨q, List.mem_cons_of_mem _ hq, hqt⟩
      · rintro ⟨q, hq, hqt⟩
        rcases List.mem_cons.mp hq with rfl | hq2
        · exact absurd hqt hd
        · exact ⟨q, hq2, hqt⟩

theorem diamScan_eq_some (l : List (α × ℕ∞)) (m : ℕ∞)
    (h : ∀ p ∈ l, p.2 ≠ ⊤) :
    diamScan l m = some ((l.map Prod.snd).foldl max m) := by
  induction l generalizing m with
  | nil => rfl
  | cons p rest ih =>
    obtain ⟨a, d⟩ := p
    have hd : d ≠ ⊤ := h (a, d) (List.mem_cons_self _ _)
    simp only [diamScan, if_neg hd, List.map_cons, List.foldl_cons]
    exact ih (max m d) (fun q hq => h q (List.mem_cons_of_mem _ hq))

theorem foldl_max_shift (l : List ℕ∞) (m : ℕ∞) :
    l.foldl max m = max m (l.foldl max 0) := by
  induction l generalizing m with
  | nil => simp
  | cons d rest ih =>
    simp only [List.foldl_cons]
    rw [ih (max m d), ih (max 0 d)]
    rw [max_comm (0 : ℕ∞) d, max_eq_left (zero_le d)]
    rw [max_assoc]

theorem foldl_max_ne_top (l : List ℕ∞) (m : ℕ∞) (hm : m ≠ ⊤)
    (h : ∀ d ∈ l, d ≠ ⊤) : l.foldl max m ≠ ⊤ := by
  induction l generalizing m with
  | nil => exact hm
  | cons d rest ih =>
    simp only [List.foldl_cons]
    refine ih (max m d) ?_ (fun e he => h e (List.mem_cons_of_mem _ he))
    have h1 : m < ⊤ := lt_top_iff_ne_top.mpr hm
    have h2 : d < ⊤ := lt_top_iff_ne_top.mpr (h d (List.mem_cons_self _ _))
    exact lt_top_iff_ne_top.mp (max_lt h1 h2)

theorem diamSources_top_iff (adj : AdjacencyList α) (ss : List α) :
    ∀ (m : ℕ∞), m ≠ ⊤ →
      (diamSources adj ss m = ⊤ ↔
        ∃ s ∈ ss, ∃ p ∈ bfsDistances adj s, p.2 = ⊤) := by
  induction ss with
  | nil =>
    intro m hm
    simp [diamSources, hm]
  | cons s ss ih =>
    intro m hm
    simp only [diamSources]
    cases hscan : diamScan (bfsDistances adj s) m with
    | none =>
      simp only []
      constructor
      · intro _
        exact ⟨s, List.mem_cons_self _ _, (diamScan_eq_none_iff _ m).mp hscan⟩
      · intro _; trivial
    | some m' =>
      have hno : ∀ p ∈ bfsDistances adj s, p.2 ≠ ⊤ := by
        intro p hp hpt
        rw [(diamScan_eq_none_iff _ m).mpr ⟨p, hp, hpt⟩] at hscan
        cases hscan
      have hm' : m' ≠ ⊤ := by
        rw [diamScan_eq_some _ m hno] at hscan
        have := Option.some_injective _ hscan
        subst this
        exact foldl_max_ne_top _ m hm
          (fun d hd => by
            rcases List.mem_map.mp hd with ⟨p, hp, rfl⟩
            exact hno p hp)
      rw [ih m' hm']
      constructor
      · rintro ⟨s', hs', hp⟩
        exact ⟨s', List.mem_cons_of_mem _ hs', hp⟩
      · rintro ⟨s', hs', hp⟩
        rcases List.mem_cons.mp hs' with rfl | hs2
        · obtain ⟨p, hp2, hpt⟩ := hp
          exact absurd hpt (hno p hp2)
        · exact ⟨s', hs2, hp⟩

theorem diamSources_eq_foldl (adj : AdjacencyList α) (ss : List α)
    (h : ∀ s ∈ ss, ∀ p ∈ bfsDistances adj s, p.2 ≠ ⊤) :
    ∀ (m : ℕ∞),
      diamSources adj ss m =
        (ss.map (fun s => ((bfsDistances adj s).map Prod.snd).foldl max 0)).foldl
          max m := by
  induction ss with
  | nil => intro m; rfl
  | cons s ss ih =>
    intro m
    have hs := h s (List.mem_cons_self _ _)
    simp only [diamSources, diamScan_eq_some _ m hs, List.map_cons,
      List.foldl_cons]
    rw [ih (fun s' hs' => h s' (List.mem_cons_of_mem _ hs'))]
    rw [foldl_max_shift _ m]

end DiameterLemmas

section ClaimC3

variable {α : Type} [DecidableEq α]

/-- C3: `calculateNetworkDiameter` returns `0` on at most one node; with
at least two nodes it returns `Infinity` (`⊤`) exactly when some ordered
pair of nodes is unreachable, and otherwise the maximum over all source
nodes of the maximum BFS distance from that source. -/
theorem calculateNetworkDiameter_spec (adj : AdjacencyList α) :
    ((mapKeys adj).length ≤ 1 → calculateNetworkDiameter adj = 0) ∧
    (2 ≤ (mapKeys adj).length →
      ((calculateNetworkDiameter adj = ⊤ ↔
        ∃ s ∈ mapKeys adj, ∃ t ∈ mapKeys adj, ¬ Reaches adj s t) ∧
       (calculateNetworkDiameter adj ≠ ⊤ →
        calculateNetworkDiameter adj =
          ((mapKeys adj).map
            (fun s => ((bfsDistances adj s).map Prod.snd).foldl max 0)).foldl
            max 0))) := by
  constructor
  · intro h
    unfold calculateNetworkDiameter
    rw [if_pos h]
  · intro h
    have hn : ¬ (mapKeys adj).length ≤ 1 := by omega
    have hdef : calculateNetworkDiameter adj =
        diamSources adj (mapKeys adj) 0 := by
      unfold calculateNetworkDiameter
      rw [if_neg hn]
    have htop : calculateNetworkDiameter adj = ⊤ ↔
        ∃ s ∈ mapKeys adj, ∃ t ∈ mapKeys adj, ¬ Reaches adj s t := by
      rw [hdef, diamSources_top_iff adj (mapKeys adj) 0 (by simp)]
      constructor
      · rintro ⟨s, hs, hp⟩
        exact ⟨s, hs, (bfsDistances_top_iff adj s hs).mp hp⟩
      · rintro ⟨s, hs, ht⟩
        exact ⟨s, hs, (bfsDistances_top_iff adj s hs).mpr ht⟩
    refine ⟨htop, ?_⟩
    intro hne
    have hno : ∀ s ∈ mapKeys adj, ∀ p ∈ bfsDistances adj s, p.2 ≠ ⊤ := by
      intro s hs p hp hpt
      exact hne (hdef.trans
        ((diamSources_top_iff adj (mapKeys adj) 0 (by simp)).mpr
          ⟨s, hs, p, hp, hpt⟩))
    rw [hdef, diamSources_eq_foldl adj (mapKeys adj) hno 0]

/-- Witness for C3: a singleton graph has diameter `0`; the disconnected
graph `A-B, C` has diameter `Infinity`, and the theorem recovers an
unreachable ordered pair from it. -/
theorem calculateNetworkDiameter_spec_witness :
    calculateNetworkDiameter [("X", ([] : List String))] = 0 ∧
    calculateNetworkDiameter
      [("A", ["B"]), ("B", ["A"]), ("C", ([] : List String))] = ⊤ ∧
    ∃ s ∈ mapKeys [("A", ["B"]), ("B", ["A"]), ("C", ([] : List String))],
      ∃ t ∈ mapKeys [("A", ["B"]), ("B", ["A"]), ("C", ([] : List String))],
        ¬ Reaches [("A", ["B"]), ("B", ["A"]), ("C", ([] : List String))] s t := by
  refine ⟨(calculateNetworkDiameter_spec _).1 (by decide), ?_, ?_⟩
  · decide
  · exact ((calculateNetworkDiameter_spec _).2 (by decide)).1.mp (by decide)

end ClaimC3

section SpScanSpec

variable {α : Type} [DecidableEq α]

theorem spScan_inl_of_mem (target : α) (path : List α) (ws : List α) :
    ∀ (visited : List α) (queue : List (List α)), target ∈ ws →
      spScan target path ws visited queue = Sum.inl (path ++ [target]) := by
  induction ws with
  | nil => intro _ _ h; cases h
  | cons w ws ih =>
    intro visited queue hmem
    by_cases hw : w = target
    · subst hw
      simp [spScan]
    · have hmem2 : target ∈ ws := by
        rcases List.mem_cons.mp hmem with h | h
        · exact absurd h.symm hw
        · exact h
      by_cases hv : w ∈ visited
      · simp only [spScan, if_neg hw, if_pos hv]
        exact ih visited queue hmem2
      · simp only [spScan, if_neg hw, if_neg hv]
        exact ih (visited ++ [w]) (queue ++ [path ++ [w]]) hmem2

theorem spScan_inr_of_not_mem (target : α) (path : List α) (ws : List α) :
    ∀ (visited : List α) (queue : List (List α)), target ∉ ws →
      ∃ fresh : List α,
        spScan target path ws visited queue =
          Sum.inr (visited ++ fresh,
            queue ++ fresh.map (fun w => path ++ [w])) ∧
        fresh.Nodup ∧
        (∀ x ∈ fresh, x ∈ ws ∧ x ∉ visited) ∧
        (∀ x ∈ ws, x ∉ visited → x ∈ fresh) := by
  induction ws with
  | nil =>
    intro visited queue _
    exact ⟨[], by simp [spScan], by simp, by simp, by simp⟩
  | cons w ws ih =>
    intro visited queue hmem
    have hw : w ≠ target := fun h => hmem (h ▸ List.mem_cons_self w ws)
    have hmem2 : target ∉ ws := fun h => hmem (List.mem_cons_of_mem _ h)
    have hwt : ¬ w = target := hw
    by_cases hv : w ∈ visited
    · obtain ⟨fresh, heq, hnd, hsub, hcompl⟩ := ih visited queue hmem2
      refine ⟨fresh, ?_, hnd, ?_, ?_⟩
      · simpa [spScan, hwt, hv] using heq
      · exact fun x hx => ⟨List.mem_cons_of_mem _ (hsub x hx).1, (hsub x hx).2⟩
      · intro x hx hxv
        rcases List.mem_cons.mp hx with rfl | hx2
        · exact absurd hv hxv
        · exact hcompl x hx2 hxv
    · obtain ⟨fresh, heq, hnd, hsub, hcompl⟩ :=
        ih (visited ++ [w]) (queue ++ [path ++ [w]]) hmem2
      have hwf : w ∉ fresh := fun hwf =>
        (hsub w hwf).2 (List.mem_append.mpr (Or.inr (List.mem_singleton.mpr rfl)))
      refine ⟨w :: fresh, ?_, List.nodup_cons.mpr ⟨hwf, hnd⟩, ?_, ?_⟩
      · rw [show spScan target path (w :: ws) visited queue =
            spScan target path ws (visited ++ [w]) (queue ++ [path ++ [w]]) by
            simp [spScan, hwt, hv]]
        rw [heq]
        simp
      · intro x hx
        rcases List.mem_cons.mp hx with rfl | hx2
        · exact ⟨List.mem_cons_self _ _, hv⟩
        · refine ⟨List.mem_cons_of_mem _ (hsub x hx2).1, fun hxv => ?_⟩
          exact (hsub x hx2).2 (List.mem_append.mpr (Or.inl hxv))
      · intro x hx hxv
        rcases List.mem_cons.mp hx with rfl | hx2
        · exact List.mem_cons_self _ _
        · by_cases hxw : x = w
          · subst hxw; exact List.mem_cons_self _ _
          · refine List.mem_cons_of_mem _ (hcompl x hx2 ?_)
            intro hmem3
            rcases List.mem_append.mp hmem3 with h | h
            · exact hxv h
            · exact hxw (List.mem_singleton.mp h)

end SpScanSpec

section SpLoopLemmas

variable {α : Type} [DecidableEq α]

theorem head_append_singleton (path : List α) (w source : α)
    (h : path.head? = some source) : (path ++ [w]).head? = some source := by
  rw [List.head?_append, h]
  rfl

theorem spLoop_some_spec (adj : AdjacencyList α) (source target : α) :
    ∀ (fuel : ℕ) (queue : List (List α)) (visited : List α),
      (∀ q ∈ queue, q.head? = some source ∧
        ∃ l, q.getLast? = some l ∧ Reaches adj source l) →
      ∀ p, spLoop adj target fuel queue visited = some p →
        p.head? = some source ∧ target ∈ p ∧ Reaches adj source target := by
  intro fuel
  induction fuel with
  | zero => intro queue visited _ p hp; cases hp
  | succ fuel ih =>
    intro queue visited hq p hp
    match queue with
    | [] => cases hp
    | path :: qrest =>
      obtain ⟨hhead, l, hlast, hreach⟩ := hq path (List.mem_cons_self _ _)
      simp only [spLoop] at hp
      rw [hlast] at hp
      dsimp only at hp
      cases hget : mapGet adj l with
      | none =>
        rw [hget] at hp
        dsimp only at hp
        exact ih qrest visited
          (fun q hq2 => hq q (List.mem_cons_of_mem _ hq2)) p hp
      | some ns =>
        rw [hget] at hp
        dsimp only at hp
        by_cases htm : target ∈ ns
        · rw [spScan_inl_of_mem target path ns visited qrest htm] at hp
          dsimp only at hp
          have hpe : path ++ [target] = p := Option.some_injective _ hp
          subst hpe
          refine ⟨head_append_singleton path target source hhead,
            List.mem_append.mpr (Or.inr (List.mem_singleton.mpr rfl)),
            Relation.ReflTransGen.tail hreach ⟨ns, hget, htm⟩⟩
        · obtain ⟨fresh, heq, hnd, hsub, hcompl⟩ :=
            spScan_inr_of_not_mem target path ns visited qrest htm
          rw [heq] at hp
          dsimp only at hp
          refine ih (qrest ++ fresh.map fun w => path ++ [w])
            (visited ++ fresh) ?_ p hp
          intro q hq2
          rcases List.mem_append.mp hq2 with hq2 | hq2
          · exact hq q (List.mem_cons_of_mem _ hq2)
          · rcases List.mem_map.mp hq2 with ⟨w, hw, rfl⟩
            exact ⟨head_append_singleton path w source hhead,
              w, List.getLast?_concat path,
              Relation.ReflTransGen.tail hreach ⟨ns, hget, (hsub w hw).1⟩⟩

theorem reaches_ne_target_closed (adj : AdjacencyList α) (source target : α)
    (hst : source ≠ target) (visited : List α) (hsrc : source ∈ visited)
    (hclosed : ∀ v ∈ visited, ∀ ns, mapGet adj v = some ns →
      ∀ w ∈ ns, w ≠ target ∧ w ∈ visited) :
    ∀ x, Reaches adj source x → x ∈ visited ∧ x ≠ target := by
  intro x hx
  induction hx with
  | refl => exact ⟨hsrc, hst⟩
  | tail _ h2 ih =>
    rcases h2 with ⟨ns, hget, hw⟩
    have h3 := hclosed _ ih.1 ns hget _ hw
    exact ⟨h3.2, h3.1⟩

theorem spLoop_none_spec (adj : AdjacencyList α) (source target : α)
    (hst : source ≠ target) :
    ∀ (fuel : ℕ) (queue : List (List α)) (visited : List α),
      queue.length + ((adjUniverse adj).toFinset \ visited.toFinset).card ≤ fuel →
      (∀ q ∈ queue, ∃ l, q.getLast? = some l ∧ l ∈ visited) →
      source ∈ visited →
      (∀ v ∈ visited,
        (∃ q ∈ queue, q.getLast? = some v) ∨
        (∀ ns, mapGet adj v = some ns → ∀ w ∈ ns, w ≠ target ∧ w ∈ visited)) →
      spLoop adj target fuel queue visited = none →
      ∀ x, Reaches adj source x → x ≠ target := by
  intro fuel
  induction fuel with
  | zero =>
    intro queue visited hfuel hq hsrc hcl _ x hx
    have hqnil : queue = [] := List.length_eq_zero.mp (by omega)
    subst hqnil
    have hclosed : ∀ v ∈ visited, ∀ ns, mapGet adj v = some ns →
        ∀ w ∈ ns, w ≠ target ∧ w ∈ visited := by
      intro v hv
      rcases hcl v hv with ⟨q, hq2, _⟩ | h
      · cases hq2
      · exact h
    exact (reaches_ne_target_closed adj source target hst visited hsrc
      hclosed x hx).2
  | succ fuel ih =>
    intro queue visited hfuel hq hsrc hcl hres x hx
    match queue with
    | [] =>
      have hclosed : ∀ v ∈ visited, ∀ ns, mapGet adj v = some ns →
          ∀ w ∈ ns, w ≠ target ∧ w ∈ visited := by
        intro v hv
        rcases hcl v hv with ⟨q, hq2, _⟩ | h
        · cases hq2
        · exact h
      exact (reaches_ne_target_closed adj source target hst visited hsrc
        hclosed x hx).2
    | path :: qrest =>
      obtain ⟨l, hlast, hlv⟩ := hq path (List.mem_cons_self _ _)
      simp only [spLoop] at hres
      rw [hlast] at hres
      dsimp only at hres
      cases hget : mapGet adj l with
      | none =>
        rw [hget] at hres
        dsimp only at hres
        refine ih qrest visited ?_
          (fun q hq2 => hq q (List.mem_cons_of_mem _ hq2)) hsrc ?_ hres x hx
        · simp only [List.length_cons] at hfuel
          omega
        · intro v hv
          rcases hcl v hv with ⟨q, hq2, hql⟩ | h
          · rcases List.mem_cons.mp hq2 with rfl | hq3
            · right
              intro ns hns
              rw [hlast] at hql
              have : l = v := Option.some_injective _ hql
              subst this
              rw [hget] at hns
              cases hns
            · exact Or.inl ⟨q, hq3, hql⟩
          · exact Or.inr h
      | some ns =>
        rw [hget] at hres
        dsimp only at hres
        by_cases htm : target ∈ ns
        · rw [spScan_inl_of_mem target path ns visited qrest htm] at hres
          dsimp only at hres
          cases hres
        · obtain ⟨fresh, heq, hnd, hsub, hcompl⟩ :=
            spScan_inr_of_not_mem target path ns visited qrest htm
          rw [heq] at hres
          dsimp only at hres
          have hfreshU : ∀ y ∈ fresh, y ∈ adjUniverse adj := fun y hy =>
            mem_adjUniverse adj l ns hget y (hsub y hy).1
          have hfreshV : ∀ y ∈ fresh, y ∉ visited := fun y hy => (hsub y hy).2
          have hset : (adjUniverse adj).toFinset \ (visited ++ fresh).toFinset =
              ((adjUniverse adj).toFinset \ visited.toFinset) \
                fresh.toFinset := by
            ext y
            simp only [Finset.mem_sdiff, List.mem_toFinset, List.mem_append]
            tauto
          have hsubF : fresh.toFinset ⊆
              (adjUniverse adj).toFinset \ visited.toFinset := by
            intro y hy
            rw [List.mem_toFinset] at hy
            rw [Finset.mem_sdiff, List.mem_toFinset, List.mem_toFinset]
            exact ⟨hfreshU y hy, hfreshV y hy⟩
          have hcardF : fresh.toFinset.card = fresh.length :=
            List.toFinset_card_of_nodup hnd
          have hfl : fresh.length ≤
              ((adjUniverse adj).toFinset \ visited.toFinset).card := by
            rw [← hcardF]
            exact Finset.card_le_card hsubF
          refine ih (qrest ++ fresh.map fun w => path ++ [w])
            (visited ++ fresh) ?_ ?_
            (List.mem_append.mpr (Or.inl hsrc)) ?_ hres x hx
          · rw [hset, Finset.card_sdiff hsubF, hcardF]
            simp only [List.length_append, List.length_cons,
              List.length_map] at hfuel ⊢
            omega
          · intro q hq2
            rcases List.mem_append.mp hq2 with hq2 | hq2
            · obtain ⟨l', hl', hl'v⟩ := hq q (List.mem_cons_of_mem _ hq2)
              exact ⟨l', hl', List.mem_append.mpr (Or.inl hl'v)⟩
            · rcases List.mem_map.mp hq2 with ⟨w, hw, rfl⟩
              exact ⟨w, List.getLast?_concat path,
                List.mem_append.mpr (Or.inr hw)⟩
          · intro v hv
            rcases List.mem_append.mp hv with hv | hv
            · rcases hcl v hv with ⟨q, hq2, hql⟩ | h
              · rcases List.mem_cons.mp hq2 with rfl | hq3
                · right
                  rw [hlast] at hql
                  have : l = v := Option.some_injective _ hql
                  subst this
                  intro ns' hns' w hw
                  have hns2 : ns' = ns := by
                    rw [hget] at hns'
                    exact Option.some_injective _ hns'.symm
                  subst hns2
                  refine ⟨fun hwt => htm (hwt ▸ hw), ?_⟩
                  by_cases hwv : w ∈ visited
                  · exact List.mem_append.mpr (Or.inl hwv)
                  · exact List.mem_append.mpr (Or.inr (hcompl w hw hwv))
                · exact Or.inl ⟨q, List.mem_append.mpr (Or.inl hq3), hql⟩
              · right
                intro ns' hns' w hw
                have h2 := h ns' hns' w hw
                exact ⟨h2.1, List.mem_append.mpr (Or.inl h2.2)⟩
            · exact Or.inl ⟨path ++ [v],
                List.mem_append.mpr (Or.inr (List.mem_map.mpr ⟨v, hv, rfl⟩)),
                List.getLast?_concat path⟩

end SpLoopLemmas

section ClaimC4

variable {α : Type} [DecidableEq α]

theorem spLoop_initial_fuel (adj : AdjacencyList α) (source : α) :
    1 + ((adjUniverse adj).toFinset \ [source].toFinset).card ≤ loopFuel adj := by
  unfold loopFuel
  have h1 : ((adjUniverse adj).toFinset \ [source].toFinset).card ≤
      (adjUniverse adj).toFinset.card :=
    Finset.card_le_card (Finset.sdiff_subset)
  have h2 : (adjUniverse adj).toFinset.card ≤ (adjUniverse adj).length :=
    List.toFinset_card_le _
  have h3 := adjUniverse_length adj
  omega

/-- C4: `findShortestPath` returns `[source]` when the endpoints coincide;
`null` when an endpoint is absent from the adjacency model; `null` when no
path exists; and otherwise a node-id sequence containing both endpoints. -/
theorem findShortestPath_spec (adj : AdjacencyList α) (source target : α) :
    (source = target → findShortestPath adj source target = some [source]) ∧
    (source ≠ target → (mapGet adj source = none ∨ mapGet adj target = none) →
      findShortestPath adj source target = none) ∧
    (source ≠ target → ¬ Reaches adj source target →
      findShortestPath adj source target = none) ∧
    (Reaches adj source target →
      (mapGet adj source).isSome → (mapGet adj target).isSome →
      ∃ p, findShortestPath adj source target = some p ∧
        source ∈ p ∧ target ∈ p) := by
  have hinitq : ∀ q ∈ [[source]], q.head? = some source ∧
      ∃ l, q.getLast? = some l ∧ Reaches adj source l := by
    intro q hq
    rcases List.mem_singleton.mp hq with rfl
    exact ⟨rfl, source, rfl, Relation.ReflTransGen.refl⟩
  refine ⟨?_, ?_, ?_, ?_⟩
  · intro h
    subst h
    simp [findShortestPath]
  · intro hst habs
    unfold findShortestPath
    rw [if_neg hst]
    rcases habs with h | h <;> simp [h]
  · intro hst hnr
    unfold findShortestPath
    rw [if_neg hst]
    by_cases habs : (mapGet adj source).isNone || (mapGet adj target).isNone
    · rw [if_pos habs]
    · rw [if_neg habs]
      cases hres : spLoop adj target (loopFuel adj) [[source]] [source] with
      | none => rfl
      | some p =>
        exact absurd (spLoop_some_spec adj source target (loopFuel adj)
          [[source]] [source] hinitq p hres).2.2 hnr
  · intro hr hs ht
    by_cases hst : source = target
    · subst hst
      refine ⟨[source], ?_, List.mem_singleton.mpr rfl,
        List.mem_singleton.mpr rfl⟩
      simp [findShortestPath]
    · unfold findShortestPath
      rw [if_neg hst]
      have habs : ((mapGet adj source).isNone || (mapGet adj target).isNone) =
          false := by
        cases hgs : mapGet adj source with
        | none => rw [hgs] at hs; cases hs
        | some _ =>
          cases hgt : mapGet adj target with
          | none => rw [hgt] at ht; cases ht
          | some _ => rfl
      rw [if_neg (by rw [habs]; exact Bool.false_ne_true)]
      cases hres : spLoop adj target (loopFuel adj) [[source]] [source] with
      | none =>
        exfalso
        refine spLoop_none_spec adj source target hst (loopFuel adj)
          [[source]] [source] ?_ ?_ (List.mem_singleton.mpr rfl) ?_ hres
          target hr rfl
        · simpa using spLoop_initial_fuel adj source
        · intro q hq
          have hq1 : q = [source] := List.mem_singleton.mp hq
          subst hq1
          exact ⟨source, rfl, List.mem_singleton.mpr rfl⟩
        · intro v hv
          refine Or.inl ⟨[source], List.mem_singleton.mpr rfl, ?_⟩
          rw [List.mem_singleton.mp hv]
          rfl
      | some p =>
        obtain ⟨hhead, htmem, _⟩ := spLoop_some_spec adj source target
          (loopFuel adj) [[source]] [source] hinitq p hres
        exact ⟨p, rfl, List.mem_of_mem_head? hhead, htmem⟩

/-- Witness for C4 on the single-edge graph `a - b`: the path from `a` to
`b` exists and contains both endpoints. -/
theorem findShortestPath_spec_witness :
    ∃ p, findShortestPath [("a", ["b"]), ("b", ["a"])] "a" "b" = some p ∧
      "a" ∈ p ∧ "b" ∈ p := by
  refine (findShortestPath_spec [("a", ["b"]), ("b", ["a"])] "a" "b").2.2.2
    ?_ (by decide) (by decide)
  exact Relation.ReflTransGen.single ⟨["b"], by decide, by decide⟩

end ClaimC4

section StarLemmas

variable {α : Type} [DecidableEq α]

theorem mapGet_starAdj_hub (hub : α) (spokes : List α) (hh : hub ∉ spokes) :
    mapGet (starAdj hub spokes) hub = some spokes := by
  unfold starAdj
  exact mapGet_cons_self _ _ _

theorem mapGet_starAdj_spoke (hub : α) (spokes : List α) (s : α)
    (hs : s ∈ spokes) (hsh : s ≠ hub) :
    mapGet (starAdj hub spokes) s = some [hub] := by
  unfold starAdj
  rw [mapGet_cons_ne _ _ _ _ hsh]
  exact mapGet_map_pairs (fun _ => [hub]) spokes s hs

theorem mapKeys_starAdj (hub : α) (spokes : List α) :
    mapKeys (starAdj hub spokes) = hub :: spokes := by
  unfold starAdj mapKeys
  simp only [List.map_cons, List.map_map]
  rw [show (Prod.fst ∘ fun s : α => (s, [hub])) = id from rfl, List.map_id]

theorem bScan_all_fresh (v : α) (ws : List α) :
    ∀ (stack : List α) (preds : List (α × List α)) (sigma : List (α × ℚ))
      (dist : List (α × ℤ)) (queue : List α),
      ws.Nodup → v ∉ ws →
      (∀ w ∈ ws, mapGet dist w = some (-1)) →
      ∃ preds' sigma' dist',
        bScan v ws ⟨stack, preds, sigma, dist, queue⟩ =
          ⟨stack, preds', sigma', dist', queue ++ ws⟩ ∧
        (∀ x, mapGet dist' x =
          if x ∈ ws then some ((mapGet dist v).getD 0 + 1)
          else mapGet dist x) ∧
        (∀ x, mapGet sigma' x =
          if x ∈ ws then
            some ((mapGet sigma x).getD 0 + (mapGet sigma v).getD 0)
          else mapGet sigma x) ∧
        (∀ x, mapGet preds' x =
          if x ∈ ws then some ((mapGet preds x).getD [] ++ [v])
          else mapGet preds x) := by
  induction ws with
  | nil =>
    intro stack preds sigma dist queue _ _ _
    exact ⟨preds, sigma, dist, by simp [bScan], fun x => by simp,
      fun x => by simp, fun x => by simp⟩
  | cons w ws ih =>
    intro stack preds sigma dist queue hnd hv hfresh
    have hw : mapGet dist w = some (-1) := hfresh w (List.mem_cons_self _ _)
    have hvw : v ≠ w := fun h => hv (h ▸ List.mem_cons_self w ws)
    have hwws : w ∉ ws := (List.nodup_cons.mp hnd).1
    obtain ⟨preds', sigma', dist', heq, hdist, hsigma, hpreds⟩ :=
      ih stack (mapSet preds w ((mapGet preds w).getD [] ++ [v]))
        (mapSet sigma w ((mapGet sigma w).getD 0 + (mapGet sigma v).getD 0))
        (mapSet dist w ((mapGet dist v).getD 0 + 1)) (queue ++ [w])
        (List.nodup_cons.mp hnd).2
        (fun h => hv (List.mem_cons_of_mem _ h))
        (fun w' hw' => by
          rw [mapGet_mapSet_ne dist w w' _ (fun h => hwws (h ▸ hw'))]
          exact hfresh w' (List.mem_cons_of_mem _ hw'))
    have hstep : bScan v (w :: ws)
        (⟨stack, preds, sigma, dist, queue⟩ : BrandesState α) =
        bScan v ws
          ⟨stack, mapSet preds w ((mapGet preds w).getD [] ++ [v]),
           mapSet sigma w ((mapGet sigma w).getD 0 + (mapGet sigma v).getD 0),
           mapSet dist w ((mapGet dist v).getD 0 + 1), queue ++ [w]⟩ := by
      have hlt : (-1 : ℤ) < 0 := by norm_num
      simp only [bScan, hw]
      rw [if_pos hlt]
      simp [mapGet_mapSet_self]
    refine ⟨preds', sigma', dist', ?_, ?_, ?_, ?_⟩
    · rw [hstep, heq]
      simp
    · intro x
      rw [hdist x]
      by_cases hxws : x ∈ ws
      · rw [if_pos hxws, if_pos (List.mem_cons_of_mem _ hxws),
          mapGet_mapSet_ne dist w v _ hvw]
      · by_cases hxw : x = w
        · subst hxw
          rw [if_neg hxws, if_pos (List.mem_cons_self _ _),
            mapGet_mapSet_self]
        · rw [if_neg hxws,
            if_neg (by simp [List.mem_cons, hxw, hxws]),
            mapGet_mapSet_ne dist w x _ hxw]
    · intro x
      rw [hsigma x]
      by_cases hxws : x ∈ ws
      · have hxw : x ≠ w := fun h => hwws (h ▸ hxws)
        rw [if_pos hxws, if_pos (List.mem_cons_of_mem _ hxws),
          mapGet_mapSet_ne sigma w x _ hxw,
          mapGet_mapSet_ne sigma w v _ hvw]
      · by_cases hxw : x = w
        · subst hxw
          rw [if_neg hxws, if_pos (List.mem_cons_self _ _),
            mapGet_mapSet_self]
        · rw [if_neg hxws,
            if_neg (by simp [List.mem_cons, hxw, hxws]),
            mapGet_mapSet_ne sigma w x _ hxw]
    · intro x
      rw [hpreds x]
      by_cases hxws : x ∈ ws
      · have hxw : x ≠ w := fun h => hwws (h ▸ hxws)
        rw [if_pos hxws, if_pos (List.mem_cons_of_mem _ hxws),
          mapGet_mapSet_ne preds w x _ hxw]
      · by_cases hxw : x = w
        · subst hxw
          rw [if_neg hxws, if_pos (List.mem_cons_self _ _),
            mapGet_mapSet_self]
        · rw [if_neg hxws,
            if_neg (by simp [List.mem_cons, hxw, hxws]),
            mapGet_mapSet_ne preds w x _ hxw]

end StarLemmas

section StarLemmas2

variable {α : Type} [DecidableEq α]

theorem bScan_noop (v : α) (ws : List α) :
    ∀ (st : BrandesState α),
      (∀ w ∈ ws, ∃ d, mapGet st.dist w = some d ∧ ¬ d < 0 ∧
        d ≠ (mapGet st.dist v).getD 0 + 1) →
      bScan v ws st = st := by
  induction ws with
  | nil => intro st _; rfl
  | cons w ws ih =>
    intro st h
    obtain ⟨d, hd, hd0, hdne⟩ := h w (List.mem_cons_self _ _)
    have hstep : bScan v (w :: ws) st = bScan v ws st := by
      simp only [bScan, hd]
      rw [if_neg hd0]
      simp only [hd, Option.getD_some]
      rw [if_neg hdne]
    rw [hstep]
    exact ih st (fun w' hw' => h w' (List.mem_cons_of_mem _ hw'))

theorem bScan_mixed (v y : α) (ws : List α) :
    ∀ (stack : List α) (preds : List (α × List α)) (sigma : List (α × ℚ))
      (dist : List (α × ℤ)) (queue : List α),
      ws.Nodup → v ∉ ws → y ∈ ws →
      (∃ d0, mapGet dist y = some d0 ∧ ¬ d0 < 0 ∧
        d0 ≠ (mapGet dist v).getD 0 + 1) →
      (∀ w ∈ ws, w ≠ y → mapGet dist w = some (-1)) →
      ∃ preds' sigma' dist',
        bScan v ws ⟨stack, preds, sigma, dist, queue⟩ =
          ⟨stack, preds', sigma', dist', queue ++ ws.erase y⟩ ∧
        (∀ x, mapGet dist' x =
          if x ∈ ws ∧ x ≠ y then some ((mapGet dist v).getD 0 + 1)
          else mapGet dist x) ∧
        (∀ x, mapGet sigma' x =
          if x ∈ ws ∧ x ≠ y then
            some ((mapGet sigma x).getD 0 + (mapGet sigma v).getD 0)
          else mapGet sigma x) ∧
        (∀ x, mapGet preds' x =
          if x ∈ ws ∧ x ≠ y then some ((mapGet preds x).getD [] ++ [v])
          else mapGet preds x) := by
  induction ws with
  | nil => intro _ _ _ _ _ _ _ hy _; cases hy
  | cons w ws ih =>
    intro stack preds sigma dist queue hnd hv hy hd0 hfresh
    have hwws : w ∉ ws := (List.nodup_cons.mp hnd).1
    have hvw : v ≠ w := fun h => hv (h ▸ List.mem_cons_self w ws)
    by_cases hwy : w = y
    · subst hwy
      obtain ⟨d0, hgd0, hd00, hd0ne⟩ := hd0
      have hskip : bScan v (w :: ws)
          (⟨stack, preds, sigma, dist, queue⟩ : BrandesState α) =
          bScan v ws ⟨stack, preds, sigma, dist, queue⟩ := by
        simp only [bScan, hgd0]
        rw [if_neg hd00]
        simp only [hgd0, Option.getD_some]
        rw [if_neg hd0ne]
      obtain ⟨preds', sigma', dist', heq, hdist, hsigma, hpreds⟩ :=
        bScan_all_fresh v ws stack preds sigma dist queue
          (List.nodup_cons.mp hnd).2
          (fun h => hv (List.mem_cons_of_mem _ h))
          (fun w' hw' => hfresh w' (List.mem_cons_of_mem _ hw')
            (fun h => hwws (h ▸ hw')))
      refine ⟨preds', sigma', dist', ?_, ?_, ?_, ?_⟩
      · rw [hskip, heq, List.erase_cons_head]
      · intro x
        rw [hdist x]
        by_cases hx : x ∈ ws
        · rw [if_pos hx, if_pos ⟨List.mem_cons_of_mem _ hx,
            fun h => hwws (h ▸ hx)⟩]
        · rw [if_neg hx,
            if_neg (by
              rintro ⟨hmem, hne⟩
              rcases List.mem_cons.mp hmem with h | h
              · exact hne h
              · exact hx h)]
      · intro x
        rw [hsigma x]
        by_cases hx : x ∈ ws
        · rw [if_pos hx, if_pos ⟨List.mem_cons_of_mem _ hx,
            fun h => hwws (h ▸ hx)⟩]
        · rw [if_neg hx,
            if_neg (by
              rintro ⟨hmem, hne⟩
              rcases List.mem_cons.mp hmem with h | h
              · exact hne h
              · exact hx h)]
      · intro x
        rw [hpreds x]
        by_cases hx : x ∈ ws
        · rw [if_pos hx, if_pos ⟨List.mem_cons_of_mem _ hx,
            fun h => hwws (h ▸ hx)⟩]
        · rw [if_neg hx,
            if_neg (by
              rintro ⟨hmem, hne⟩
              rcases List.mem_cons.mp hmem with h | h
              · exact hne h
              · exact hx h)]
    · have hyws : y ∈ ws := by
        rcases List.mem_cons.mp hy with h | h
        · exact absurd h.symm hwy
        · exact h
      have hw : mapGet dist w = some (-1) :=
        hfresh w (List.mem_cons_self _ _) hwy
      have hstep : bScan v (w :: ws)
          (⟨stack, preds, sigma, dist, queue⟩ : BrandesState α) =
          bScan v ws
            ⟨stack, mapSet preds w ((mapGet preds w).getD [] ++ [v]),
             mapSet sigma w ((mapGet sigma w).getD 0 + (mapGet sigma v).getD 0),
             mapSet dist w ((mapGet dist v).getD 0 + 1), queue ++ [w]⟩ := by
        have hlt : (-1 : ℤ) < 0 := by norm_num
        simp only [bScan, hw]
        rw [if_pos hlt]
        simp [mapGet_mapSet_self]
      have hyw : y ≠ w := fun h => hwy h.symm
      obtain ⟨preds', sigma', dist', heq, hdist, hsigma, hpreds⟩ :=
        ih stack (mapSet preds w ((mapGet preds w).getD [] ++ [v]))
          (mapSet sigma w ((mapGet sigma w).getD 0 + (mapGet sigma v).getD 0))
          (mapSet dist w ((mapGet dist v).getD 0 + 1)) (queue ++ [w])
          (List.nodup_cons.mp hnd).2
          (fun h => hv (List.mem_cons_of_mem _ h)) hyws
          (by
            obtain ⟨d0, hgd0, hd00, hd0ne⟩ := hd0
            exact ⟨d0, by rw [mapGet_mapSet_ne dist w y _ hyw]; exact hgd0,
              hd00, by rw [mapGet_mapSet_ne dist w v _ hvw]; exact hd0ne⟩)
          (fun w' hw' hw'y => by
            rw [mapGet_mapSet_ne dist w w' _ (fun h => hwws (h ▸ hw'))]
            exact hfresh w' (List.mem_cons_of_mem _ hw') hw'y)
      refine ⟨preds', sigma', dist', ?_, ?_, ?_, ?_⟩
      · rw [hstep, heq, List.erase_cons_tail]
        · simp
        · simp [hwy]
      · intro x
        rw [hdist x]
        by_cases hxc : x ∈ ws ∧ x ≠ y
        · have hxw : x ≠ w := fun h => hwws (h ▸ hxc.1)
          rw [if_pos hxc, if_pos ⟨List.mem_cons_of_mem _ hxc.1, hxc.2⟩,
            mapGet_mapSet_ne dist w v _ hvw]
        · by_cases hxw : x = w
          · subst hxw
            rw [if_neg hxc, if_pos ⟨List.mem_cons_self _ _, hwy⟩,
              mapGet_mapSet_self]
          · rw [if_neg hxc,
              if_neg (by
                rintro ⟨hmem, hne⟩
                rcases List.mem_cons.mp hmem with h | h
                · exact hxw h
                · exact hxc ⟨h, hne⟩),
              mapGet_mapSet_ne dist w x _ hxw]
      · intro x
        rw [hsigma x]
        by_cases hxc : x ∈ ws ∧ x ≠ y
        · have hxw : x ≠ w := fun h => hwws (h ▸ hxc.1)
          rw [if_pos hxc, if_pos ⟨List.mem_cons_of_mem _ hxc.1, hxc.2⟩,
            mapGet_mapSet_ne sigma w x _ hxw,
            mapGet_mapSet_ne sigma w v _ hvw]
        · by_cases hxw : x = w
          · subst hxw
            rw [if_neg hxc, if_pos ⟨List.mem_cons_self _ _, hwy⟩,
              mapGet_mapSet_self]
          · rw [if_neg hxc,
              if_neg (by
                rintro ⟨hmem, hne⟩
                rcases List.mem_cons.mp hmem with h | h
                · exact hxw h
                · exact hxc ⟨h, hne⟩),
              mapGet_mapSet_ne sigma w x _ hxw]
      · intro x
        rw [hpreds x]
        by_cases hxc : x ∈ ws ∧ x ≠ y
        · have hxw : x ≠ w := fun h => hwws (h ▸ hxc.1)
          rw [if_pos hxc, if_pos ⟨List.mem_cons_of_mem _ hxc.1, hxc.2⟩,
            mapGet_mapSet_ne preds w x _ hxw]
        · by_cases hxw : x = w
          · subst hxw
            rw [if_neg hxc, if_pos ⟨List.mem_cons_self _ _, hwy⟩,
              mapGet_mapSet_self]
          · rw [if_neg hxc,
              if_neg (by
                rintro ⟨hmem, hne⟩
                rcases List.mem_cons.mp hmem with h | h
                · exact hxw h
                · exact hxc ⟨h, hne⟩),
              mapGet_mapSet_ne preds w x _ hxw]

end StarLemmas2

section StarLemmas3

variable {α : Type} [DecidableEq α] {β : Type}

theorem mapGet_initMapConst (keys : List α) (b : β) (x : α) :
    mapGet (initMapConst keys b) x = if x ∈ keys then some b else none := by
  have h := mapGet_foldl_mapSet_valfun keys (fun _ => b) [] x
  unfold initMapConst
  exact h

theorem bLoop_drain (adj : AdjacencyList α) :
    ∀ (qs : List α) (fuel : ℕ) (stack : List α) (preds : List (α × List α))
      (sigma : List (α × ℚ)) (dist : List (α × ℤ)),
      qs.length ≤ fuel →
      (∀ q ∈ qs, ∃ ns, mapGet adj q = some ns ∧
        ∀ w ∈ ns, ∃ d, mapGet dist w = some d ∧ ¬ d < 0 ∧
          d ≠ (mapGet dist q).getD 0 + 1) →
      bLoop adj fuel ⟨stack, preds, sigma, dist, qs⟩ =
        ⟨qs.reverse ++ stack, preds, sigma, dist, []⟩ := by
  intro qs
  induction qs with
  | nil =>
    intro fuel stack preds sigma dist _ _
    cases fuel with
    | zero => rfl
    | succ fuel => rfl
  | cons q qs ih =>
    intro fuel stack preds sigma dist hfuel h
    cases fuel with
    | zero => simp at hfuel
    | succ fuel =>
      obtain ⟨ns, hns, hcond⟩ := h q (List.mem_cons_self _ _)
      have hnoop : bScan q ns
          (⟨q :: stack, preds, sigma, dist, qs⟩ : BrandesState α) =
          ⟨q :: stack, preds, sigma, dist, qs⟩ :=
        bScan_noop q ns _ hcond
      have hstep : bLoop adj (fuel + 1)
          (⟨stack, preds, sigma, dist, q :: qs⟩ : BrandesState α) =
          bLoop adj fuel ⟨q :: stack, preds, sigma, dist, qs⟩ := by
        simp only [bLoop, hns]
        rw [hnoop]
      rw [hstep, ih fuel (q :: stack) preds sigma dist
        (by simp at hfuel ⊢; omega)
        (fun q' hq' => h q' (List.mem_cons_of_mem _ hq'))]
      simp

theorem bLoop_star_hub (hub : α) (spokes : List α) (hnd : spokes.Nodup)
    (hh : hub ∉ spokes) :
    ∃ preds' sigma' dist',
      bLoop (starAdj hub spokes) (hub :: spokes).length
        ⟨[], initMapConst (hub :: spokes) ([] : List α),
         mapSet (initMapConst (hub :: spokes) (0 : ℚ)) hub 1,
         mapSet (initMapConst (hub :: spokes) (-1 : ℤ)) hub 0,
         [hub]⟩ =
        ⟨spokes.reverse ++ [hub], preds', sigma', dist', []⟩ ∧
      (∀ x ∈ spokes, (mapGet sigma' x).getD 0 = 1) ∧
      (mapGet sigma' hub).getD 0 = 1 ∧
      (∀ x ∈ spokes, (mapGet preds' x).getD [] = [hub]) ∧
      (mapGet preds' hub).getD [] = [] := by
  set adj := starAdj hub spokes with hadj
  set preds0 := initMapConst (hub :: spokes) ([] : List α) with hp0
  set sigma0 := mapSet (initMapConst (hub :: spokes) (0 : ℚ)) hub 1 with hs0
  set dist0 := mapSet (initMapConst (hub :: spokes) (-1 : ℤ)) hub 0 with hd0
  have hdist0hub : mapGet dist0 hub = some 0 := by
    rw [hd0, mapGet_mapSet_self]
  have hdist0spoke : ∀ x ∈ spokes, mapGet dist0 x = some (-1) := by
    intro x hx
    rw [hd0, mapGet_mapSet_ne _ _ _ _ (fun h => hh (by rw [← h]; exact hx)),
      mapGet_initMapConst]
    rw [if_pos (List.mem_cons_of_mem _ hx)]
  have hsigma0hub : mapGet sigma0 hub = some 1 := by
    rw [hs0, mapGet_mapSet_self]
  have hsigma0spoke : ∀ x ∈ spokes, mapGet sigma0 x = some 0 := by
    intro x hx
    rw [hs0, mapGet_mapSet_ne _ _ _ _ (fun h => hh (by rw [← h]; exact hx)),
      mapGet_initMapConst]
    rw [if_pos (List.mem_cons_of_mem _ hx)]
  have hpreds0 : ∀ x ∈ hub :: spokes, mapGet preds0 x = some [] := by
    intro x hx
    rw [hp0, mapGet_initMapConst, if_pos hx]
  obtain ⟨preds1, sigma1, dist1, heq, hdist1, hsigma1, hpreds1⟩ :=
    bScan_all_fresh hub spokes [hub] preds0 sigma0 dist0 [] hnd hh
      hdist0spoke
  have hstep1 : bLoop adj (spokes.length + 1)
      (⟨[], preds0, sigma0, dist0, [hub]⟩ : BrandesState α) =
      bLoop adj spokes.length ⟨[hub], preds1, sigma1, dist1, spokes⟩ := by
    simp only [bLoop, hadj, mapGet_starAdj_hub hub spokes hh]
    rw [show bScan hub spokes
        (⟨[hub], preds0, sigma0, dist0, []⟩ : BrandesState α) =
        ⟨[hub], preds1, sigma1, dist1, [] ++ spokes⟩ from heq]
    simp
  have hdist1hub : mapGet dist1 hub = some 0 := by
    rw [hdist1 hub, if_neg hh]
    exact hdist0hub
  have hdist1spoke : ∀ x ∈ spokes, mapGet dist1 x = some 1 := by
    intro x hx
    rw [hdist1 x, if_pos hx, hdist0hub]
    rfl
  have hdrain : bLoop adj spokes.length
      (⟨[hub], preds1, sigma1, dist1, spokes⟩ : BrandesState α) =
      ⟨spokes.reverse ++ [hub], preds1, sigma1, dist1, []⟩ := by
    refine bLoop_drain adj spokes spokes.length [hub] preds1 sigma1 dist1
      le_rfl ?_
    intro q hq
    refine ⟨[hub], ?_, ?_⟩
    · exact mapGet_starAdj_spoke hub spokes q hq (fun h => hh (by rw [← h]; exact hq))
    · intro w hw
      rcases List.mem_singleton.mp hw with rfl
      refine ⟨0, hdist1hub, by norm_num, ?_⟩
      rw [hdist1spoke q hq]
      norm_num
  refine ⟨preds1, sigma1, dist1, ?_, ?_, ?_, ?_, ?_⟩
  · have : (hub :: spokes).length = spokes.length + 1 := by simp
    rw [this, hstep1, hdrain]
  · intro x hx
    rw [hsigma1 x, if_pos hx, hsigma0spoke x hx, hsigma0hub]
    norm_num
  · rw [hsigma1 hub, if_neg hh, hsigma0hub]
    rfl
  · intro x hx
    rw [hpreds1 x, if_pos hx, hpreds0 x (List.mem_cons_of_mem _ hx)]
    rfl
  · rw [hpreds1 hub, if_neg hh, hpreds0 hub (List.mem_cons_self _ _)]
    rfl

end StarLemmas3

section StarLemmas4

variable {α : Type} [DecidableEq α]

theorem bLoop_star_spoke (hub : α) (spokes : List α) (hnd : spokes.Nodup)
    (hh : hub ∉ spokes) (s : α) (hs : s ∈ spokes) :
    ∃ preds' sigma' dist',
      bLoop (starAdj hub spokes) (hub :: spokes).length
        ⟨[], initMapConst (hub :: spokes) ([] : List α),
         mapSet (initMapConst (hub :: spokes) (0 : ℚ)) s 1,
         mapSet (initMapConst (hub :: spokes) (-1 : ℤ)) s 0,
         [s]⟩ =
        ⟨(spokes.erase s).reverse ++ [hub, s], preds', sigma', dist', []⟩ ∧
      (∀ x ∈ spokes, (mapGet sigma' x).getD 0 = 1) ∧
      (mapGet sigma' hub).getD 0 = 1 ∧
      (∀ x ∈ spokes, x ≠ s → (mapGet preds' x).getD [] = [hub]) ∧
      (mapGet preds' hub).getD [] = [s] ∧
      (mapGet preds' s).getD [] = [] := by
  have hsh : s ≠ hub := fun h => hh (h ▸ hs)
  set adj := starAdj hub spokes with hadj
  set preds0 := initMapConst (hub :: spokes) ([] : List α) with hp0
  set sigma0 := mapSet (initMapConst (hub :: spokes) (0 : ℚ)) s 1 with hs0
  set dist0 := mapSet (initMapConst (hub :: spokes) (-1 : ℤ)) s 0 with hd0
  have hdist0s : mapGet dist0 s = some 0 := by rw [hd0, mapGet_mapSet_self]
  have hdist0hub : mapGet dist0 hub = some (-1) := by
    rw [hd0, mapGet_mapSet_ne _ _ _ _ (Ne.symm hsh), mapGet_initMapConst,
      if_pos (List.mem_cons_self _ _)]
  have hdist0other : ∀ x ∈ spokes, x ≠ s → mapGet dist0 x = some (-1) := by
    intro x hx hxs
    rw [hd0, mapGet_mapSet_ne _ _ _ _ hxs, mapGet_initMapConst,
      if_pos (List.mem_cons_of_mem _ hx)]
  have hsigma0s : mapGet sigma0 s = some 1 := by rw [hs0, mapGet_mapSet_self]
  have hsigma0hub : mapGet sigma0 hub = some 0 := by
    rw [hs0, mapGet_mapSet_ne _ _ _ _ (Ne.symm hsh), mapGet_initMapConst,
      if_pos (List.mem_cons_self _ _)]
  have hsigma0other : ∀ x ∈ spokes, x ≠ s → mapGet sigma0 x = some 0 := by
    intro x hx hxs
    rw [hs0, mapGet_mapSet_ne _ _ _ _ hxs, mapGet_initMapConst,
      if_pos (List.mem_cons_of_mem _ hx)]
  have hpreds0 : ∀ x ∈ hub :: spokes, mapGet preds0 x = some [] := by
    intro x hx
    rw [hp0, mapGet_initMapConst, if_pos hx]
  -- first iteration: pop `s`, scan its single neighbour `hub`
  obtain ⟨predsA, sigmaA, distA, heqA, hdistA, hsigmaA, hpredsA⟩ :=
    bScan_all_fresh s [hub] [s] preds0 sigma0 dist0 []
      (List.nodup_singleton _) (by simp [hsh])
      (by intro w hw; rcases List.mem_singleton.mp hw with rfl; exact hdist0hub)
  have hstep1 : bLoop adj (spokes.length + 1)
      (⟨[], preds0, sigma0, dist0, [s]⟩ : BrandesState α) =
      bLoop adj spokes.length ⟨[s], predsA, sigmaA, distA, [hub]⟩ := by
    simp only [bLoop, hadj, mapGet_starAdj_spoke hub spokes s hs hsh]
    rw [show bScan s [hub] (⟨[s], preds0, sigma0, dist0, []⟩ : BrandesState α) =
        ⟨[s], predsA, sigmaA, distA, [] ++ [hub]⟩ from heqA]
    simp
  have hdistAhub : mapGet distA hub = some 1 := by
    rw [hdistA hub, if_pos (List.mem_singleton.mpr rfl), hdist0s]
    rfl
  have hdistAs : mapGet distA s = some 0 := by
    rw [hdistA s, if_neg (by simp [hsh]), hdist0s]
  have hdistAother : ∀ x ∈ spokes, x ≠ s → mapGet distA x = some (-1) := by
    intro x hx hxs
    rw [hdistA x, if_neg (by
        simp only [List.mem_singleton]
        exact fun h => hh (by rw [← h]; exact hx)),
      hdist0other x hx hxs]
  have hsigmaAhub : mapGet sigmaA hub = some 1 := by
    rw [hsigmaA hub, if_pos (List.mem_singleton.mpr rfl), hsigma0hub,
      hsigma0s]
    norm_num
  have hsigmaAs : mapGet sigmaA s = some 1 := by
    rw [hsigmaA s, if_neg (by simp [hsh]), hsigma0s]
  have hsigmaAother : ∀ x ∈ spokes, x ≠ s → mapGet sigmaA x = some 0 := by
    intro x hx hxs
    rw [hsigmaA x, if_neg (by
        simp only [List.mem_singleton]
        exact fun h => hh (by rw [← h]; exact hx)),
      hsigma0other x hx hxs]
  have hpredsAhub : mapGet predsA hub = some [s] := by
    rw [hpredsA hub, if_pos (List.mem_singleton.mpr rfl),
      hpreds0 hub (List.mem_cons_self _ _)]
    rfl
  have hpredsAother : ∀ x ∈ hub :: spokes, x ≠ hub → mapGet predsA x = some [] := by
    intro x hx hxh
    rw [hpredsA x, if_neg (by simp [hxh]), hpreds0 x hx]
  -- second iteration: pop `hub`, scan all spokes; `s` is already settled
  obtain ⟨predsB, sigmaB, distB, heqB, hdistB, hsigmaB, hpredsB⟩ :=
    bScan_mixed hub s spokes [hub, s] predsA sigmaA distA [] hnd hh hs
      ⟨0, hdistAs, by norm_num, by rw [hdistAhub]; norm_num⟩
      (fun w hw hws => hdistAother w hw hws)
  have hstep2 : bLoop adj spokes.length
      (⟨[s], predsA, sigmaA, distA, [hub]⟩ : BrandesState α) =
      bLoop adj (spokes.length - 1)
        ⟨[hub, s], predsB, sigmaB, distB, spokes.erase s⟩ := by
    cases hsp : spokes.length with
    | zero =>
      exfalso
      rw [List.length_eq_zero] at hsp
      subst hsp
      cases hs
    | succ m =>
      simp only [bLoop, hadj, mapGet_starAdj_hub hub spokes hh]
      rw [show bScan hub spokes
          (⟨[hub, s], predsA, sigmaA, distA, []⟩ : BrandesState α) =
          ⟨[hub, s], predsB, sigmaB, distB, [] ++ spokes.erase s⟩ from heqB]
      simp
  have hdistBhub : mapGet distB hub = some 1 := by
    rw [hdistB hub, if_neg (by simp [hh]), hdistAhub]
  have hdistBother : ∀ x ∈ spokes, x ≠ s → mapGet distB x = some 2 := by
    intro x hx hxs
    rw [hdistB x, if_pos ⟨hx, hxs⟩, hdistAhub]
    rfl
  have hdrain : bLoop adj (spokes.length - 1)
      (⟨[hub, s], predsB, sigmaB, distB, spokes.erase s⟩ : BrandesState α) =
      ⟨(spokes.erase s).reverse ++ [hub, s], predsB, sigmaB, distB, []⟩ := by
    refine bLoop_drain adj (spokes.erase s) (spokes.length - 1) [hub, s]
      predsB sigmaB distB (by rw [List.length_erase_of_mem hs]) ?_
    intro q hq
    have hq2 : q ≠ s ∧ q ∈ spokes := (hnd.mem_erase_iff).mp hq
    refine ⟨[hub], mapGet_starAdj_spoke hub spokes q hq2.2
      (fun h => hh (by rw [← h]; exact hq2.2)), ?_⟩
    intro w hw
    rcases List.mem_singleton.mp hw with rfl
    refine ⟨1, hdistBhub, by norm_num, ?_⟩
    rw [hdistBother q hq2.2 hq2.1]
    norm_num
  refine ⟨predsB, sigmaB, distB, ?_, ?_, ?_, ?_, ?_, ?_⟩
  · have hlen : (hub :: spokes).length = spokes.length + 1 := by simp
    rw [hlen, hstep1, hstep2, hdrain]
  · intro x hx
    by_cases hxs : x = s
    · subst hxs
      rw [hsigmaB x, if_neg (by simp), hsigmaAs]
      rfl
    · rw [hsigmaB x, if_pos ⟨hx, hxs⟩, hsigmaAhub,
        hsigmaAother x hx hxs]
      norm_num
  · rw [hsigmaB hub, if_neg (by simp [hh]), hsigmaAhub]
    rfl
  · intro x hx hxs
    rw [hpredsB x, if_pos ⟨hx, hxs⟩,
      hpredsAother x (List.mem_cons_of_mem _ hx)
        (fun h => hh (by rw [← h]; exact hx))]
    rfl
  · rw [hpredsB hub, if_neg (by simp [hh]), hpredsAhub]
    rfl
  · rw [hpredsB s, if_neg (by simp), hpredsAother s
      (List.mem_cons_of_mem _ hs) hsh]
    rfl

end StarLemmas4

section StarAccum

variable {α : Type} [DecidableEq α] {β : Type}

theorem mapSet_mapSet (m : List (α × β)) (a : α) (b c : β) :
    mapSet (mapSet m a b) a c = mapSet m a c := by
  induction m with
  | nil => simp [mapSet]
  | cons p rest ih =>
    obtain ⟨k, v⟩ := p
    by_cases h : a = k
    · subst h; simp [mapSet]
    · simp [mapSet, h, ih]

theorem mapSet_eq_self (m : List (α × β)) (a : α) (b : β)
    (h : mapGet m a = some b) : mapSet m a b = m := by
  induction m with
  | nil => cases h
  | cons p rest ih =>
    obtain ⟨k, v⟩ := p
    by_cases hk : a = k
    · subst hk
      rw [mapGet_cons_self] at h
      have : v = b := Option.some_injective _ h
      subst this
      simp [mapSet]
    · rw [mapGet_cons_ne _ _ _ _ hk] at h
      simp [mapSet, hk, ih h]

theorem bAccum_spoke_block (hub source : α) (preds : List (α × List α))
    (sigma : List (α × ℚ)) (hshub : (mapGet sigma hub).getD 0 = 1) :
    ∀ (ws : List α) (tail : List α) (delta bc : List (α × ℚ)),
      (∀ w ∈ ws, w ≠ source ∧ w ≠ hub ∧
        (mapGet preds w).getD [] = [hub] ∧
        (mapGet sigma w).getD 0 = 1 ∧
        (mapGet delta w).getD 0 = 0 ∧
        (∃ v, mapGet bc w = some v)) →
      (∃ dh, mapGet delta hub = some dh) →
      bAccum source preds sigma (ws ++ tail) delta bc =
        bAccum source preds sigma tail
          (mapSet delta hub ((mapGet delta hub).getD 0 + (ws.length : ℚ))) bc := by
  intro ws
  induction ws with
  | nil =>
    intro tail delta bc _ hdh
    obtain ⟨dh, hdh⟩ := hdh
    rw [List.nil_append, List.length_nil, Nat.cast_zero, add_zero, hdh,
      Option.getD_some, mapSet_eq_self delta hub dh hdh]
  | cons w ws ih =>
    intro tail delta bc hws hdh
    obtain ⟨dh, hdhg⟩ := hdh
    obtain ⟨hwsrc, hwhub, hwpred, hwsig, hwdelta, v, hwbc⟩ :=
      hws w (List.mem_cons_self _ _)
    have hbap : bAccumPreds sigma w [hub] delta =
        mapSet delta hub ((mapGet delta hub).getD 0 +
          (mapGet sigma hub).getD 0 / (mapGet sigma w).getD 0 *
            (1 + (mapGet delta w).getD 0)) := rfl
    have hval : (mapGet delta hub).getD 0 +
        (mapGet sigma hub).getD 0 / (mapGet sigma w).getD 0 *
          (1 + (mapGet delta w).getD 0) = dh + 1 := by
      rw [hdhg, hshub, hwsig, hwdelta]
      norm_num
    have hstep : bAccum source preds sigma ((w :: ws) ++ tail) delta bc =
        bAccum source preds sigma (ws ++ tail)
          (mapSet delta hub (dh + 1)) bc := by
      simp only [List.cons_append, bAccum, hwpred]
      rw [hbap, hval, if_pos hwsrc, mapGet_mapSet_ne delta hub w _ hwhub,
        hwdelta, add_zero, hwbc, Option.getD_some,
        mapSet_eq_self bc w v hwbc]
      rfl
    rw [hstep]
    rw [ih tail (mapSet delta hub (dh + 1)) bc ?_ ?_]
    · rw [mapGet_mapSet_self, Option.getD_some, mapSet_mapSet, hdhg,
        Option.getD_some]
      congr 1
      simp only [List.length_cons]
      push_cast
      ring_nf
    · intro w' hw'
      obtain ⟨h1, h2, h3, h4, h5, h6⟩ := hws w' (List.mem_cons_of_mem _ hw')
      exact ⟨h1, h2, h3, h4,
        by rw [mapGet_mapSet_ne delta hub w' _ h2]; exact h5, h6⟩
    · exact ⟨dh + 1, mapGet_mapSet_self _ _ _⟩

end StarAccum

section StarPerSource

variable {α : Type} [DecidableEq α]

theorem brandesSource_star_hub (hub : α) (spokes : List α)
    (hnd : spokes.Nodup) (hh : hub ∉ spokes) (bc : List (α × ℚ))
    (hbc : ∀ x ∈ spokes, ∃ v, mapGet bc x = some v) :
    brandesSource (starAdj hub spokes) (hub :: spokes) bc hub = bc := by
  obtain ⟨preds1, sigma1, dist1, heq, hsig, hsighub, hpred, hpredhub⟩ :=
    bLoop_star_hub hub spokes hnd hh
  unfold brandesSource
  dsimp only
  rw [heq]
  dsimp only
  rw [bAccum_spoke_block hub hub preds1 sigma1 hsighub spokes.reverse [hub]
    (initMapConst (hub :: spokes) 0) bc ?_ ?_]
  · simp only [bAccum, hpredhub]
    rw [if_neg (fun h => h rfl)]
  · intro w hw
    rw [List.mem_reverse] at hw
    have hwh : w ≠ hub := fun h => hh (h ▸ hw)
    refine ⟨hwh, hwh, hpred w hw, hsig w hw, ?_, ?_⟩
    · rw [mapGet_initMapConst, if_pos (List.mem_cons_of_mem _ hw)]
      rfl
    · exact hbc w hw
  · refine ⟨0, ?_⟩
    rw [mapGet_initMapConst, if_pos (List.mem_cons_self _ _)]

theorem brandesSource_star_spoke (hub : α) (spokes : List α)
    (hnd : spokes.Nodup) (hh : hub ∉ spokes) (s : α) (hs : s ∈ spokes)
    (bc : List (α × ℚ))
    (hbc : ∀ x ∈ spokes, ∃ v, mapGet bc x = some v) :
    brandesSource (starAdj hub spokes) (hub :: spokes) bc s =
      mapSet bc hub ((mapGet bc hub).getD 0 +
        ((spokes.length - 1 : ℕ) : ℚ)) := by
  have hsh : s ≠ hub := fun h => hh (h ▸ hs)
  obtain ⟨preds2, sigma2, dist2, heq, hsig, hsighub, hpred, hpredhub,
    hpreds⟩ := bLoop_star_spoke hub spokes hnd hh s hs
  unfold brandesSource
  dsimp only
  rw [heq]
  dsimp only
  rw [bAccum_spoke_block hub s preds2 sigma2 hsighub
    (spokes.erase s).reverse [hub, s] (initMapConst (hub :: spokes) 0) bc
    ?_ ?_]
  · have hlen : ((spokes.erase s).reverse.length : ℚ) =
        ((spokes.length - 1 : ℕ) : ℚ) := by
      rw [List.length_reverse, List.length_erase_of_mem hs]
    have hd0hub : mapGet (initMapConst (hub :: spokes) (0 : ℚ)) hub =
        some 0 := by
      rw [mapGet_initMapConst, if_pos (List.mem_cons_self _ _)]
    have hd0s : mapGet (initMapConst (hub :: spokes) (0 : ℚ)) s = some 0 := by
      rw [mapGet_initMapConst, if_pos (List.mem_cons_of_mem _ hs)]
    simp only [bAccum, hpredhub, hpreds]
    rw [show bAccumPreds sigma2 hub [s]
        (mapSet (initMapConst (hub :: spokes) 0) hub
          ((mapGet (initMapConst (hub :: spokes) 0) hub).getD 0 +
            ((spokes.erase s).reverse.length : ℚ))) =
        mapSet (mapSet (initMapConst (hub :: spokes) 0) hub
          ((mapGet (initMapConst (hub :: spokes) 0) hub).getD 0 +
            ((spokes.erase s).reverse.length : ℚ))) s
          ((mapGet (mapSet (initMapConst (hub :: spokes) 0) hub
            ((mapGet (initMapConst (hub :: spokes) 0) hub).getD 0 +
              ((spokes.erase s).reverse.length : ℚ))) s).getD 0 +
            (mapGet sigma2 s).getD 0 / (mapGet sigma2 hub).getD 0 *
              (1 + (mapGet (mapSet (initMapConst (hub :: spokes) 0) hub
                ((mapGet (initMapConst (hub :: spokes) 0) hub).getD 0 +
                  ((spokes.erase s).reverse.length : ℚ))) hub).getD 0))
        from rfl]
    rw [if_pos (Ne.symm hsh), if_neg (fun h => h rfl)]
    rw [mapGet_mapSet_ne _ hub s _ hsh, mapGet_mapSet_self, hd0hub, hd0s]
    simp only [Option.getD_some]
    rw [hsig s hs, hsighub, hlen]
    congr 1
    rw [mapGet_mapSet_ne _ s hub _ (Ne.symm hsh), mapGet_mapSet_self,
      Option.getD_some]
    ring
  · intro w hw
    rw [List.mem_reverse] at hw
    obtain ⟨hwns, hwsp⟩ := (hnd.mem_erase_iff).mp hw
    have hwh : w ≠ hub := fun h => hh (h ▸ hwsp)
    refine ⟨hwns, hwh, hpred w hwsp hwns, hsig w hwsp, ?_, ?_⟩
    · rw [mapGet_initMapConst, if_pos (List.mem_cons_of_mem _ hwsp)]
      rfl
    · exact hbc w hwsp
  · refine ⟨0, ?_⟩
    rw [mapGet_initMapConst, if_pos (List.mem_cons_self _ _)]

end StarPerSource

section ClaimC1

variable {α : Type} [DecidableEq α]

theorem foldl_brandes_spokes (hub : α) (spokes : List α)
    (hnd : spokes.Nodup) (hh : hub ∉ spokes) :
    ∀ (ss : List α) (bc : List (α × ℚ)),
      (∀ x ∈ ss, x ∈ spokes) →
      (∀ x ∈ spokes, ∃ v, mapGet bc x = some v) →
      (∃ vh, mapGet bc hub = some vh) →
      ss.foldl (brandesSource (starAdj hub spokes) (hub :: spokes)) bc =
        mapSet bc hub ((mapGet bc hub).getD 0 +
          (ss.length : ℚ) * ((spokes.length - 1 : ℕ) : ℚ)) := by
  intro ss
  induction ss with
  | nil =>
    intro bc _ _ hvh
    obtain ⟨vh, hvh⟩ := hvh
    rw [List.foldl_nil, List.length_nil, Nat.cast_zero, zero_mul, add_zero,
      hvh, Option.getD_some, mapSet_eq_self bc hub vh hvh]
  | cons s' ss ih =>
    intro bc hss hbc hvh
    obtain ⟨vh, hvhg⟩ := hvh
    rw [List.foldl_cons,
      brandesSource_star_spoke hub spokes hnd hh s'
        (hss s' (List.mem_cons_self _ _)) bc hbc]
    rw [ih (mapSet bc hub ((mapGet bc hub).getD 0 +
        ((spokes.length - 1 : ℕ) : ℚ)))
      (fun x hx => hss x (List.mem_cons_of_mem _ hx)) ?_ ?_]
    · rw [mapGet_mapSet_self, Option.getD_some, mapSet_mapSet, hvhg,
        Option.getD_some]
      congr 1
      simp only [List.length_cons]
      push_cast
      ring
    · intro x hx
      have hxh : x ≠ hub := fun h => hh (h ▸ hx)
      rw [mapGet_mapSet_ne bc hub x _ hxh]
      exact hbc x hx
    · exact ⟨_, mapGet_mapSet_self _ _ _⟩

theorem mapGet_map_snd {β γ : Type} (f : β → γ) (m : List (α × β)) (x : α) :
    mapGet (m.map (fun p => (p.1, f p.2))) x = (mapGet m x).map f := by
  induction m with
  | nil => rfl
  | cons p rest ih =>
    obtain ⟨k, v⟩ := p
    by_cases h : x = k
    · subst h; simp [mapGet_cons]
    · simp [mapGet_cons, h, ih]

/-- C1: on every star graph (a hub adjacent to `k ≥ 2` distinct spokes,
each spoke adjacent to the hub only), `calculateBetweennessCentrality`
assigns every spoke exactly `0` and assigns the hub a score strictly
greater than every spoke's score (namely `k (k-1) / 2`). -/
theorem betweennessCentrality_star (hub : α) (spokes : List α)
    (hnd : spokes.Nodup) (hh : hub ∉ spokes) (hk : 2 ≤ spokes.length) :
    (∀ s ∈ spokes,
      mapGet (calculateBetweennessCentrality (starAdj hub spokes)) s =
        some 0) ∧
    ∃ bh : ℚ,
      mapGet (calculateBetweennessCentrality (starAdj hub spokes)) hub =
        some bh ∧ 0 < bh ∧
      ∀ s ∈ spokes, ∀ bs : ℚ,
        mapGet (calculateBetweennessCentrality (starAdj hub spokes)) s =
          some bs → bs < bh := by
  have hbc0 : ∀ x ∈ hub :: spokes,
      mapGet (initMapConst (hub :: spokes) (0 : ℚ)) x = some 0 := by
    intro x hx
    rw [mapGet_initMapConst, if_pos hx]
  have hfold : (hub :: spokes).foldl
      (brandesSource (starAdj hub spokes) (hub :: spokes))
      (initMapConst (hub :: spokes) (0 : ℚ)) =
      mapSet (initMapConst (hub :: spokes) (0 : ℚ)) hub
        ((spokes.length : ℚ) * ((spokes.length - 1 : ℕ) : ℚ)) := by
    rw [List.foldl_cons,
      brandesSource_star_hub hub spokes hnd hh _
        (fun x hx => ⟨0, hbc0 x (List.mem_cons_of_mem _ hx)⟩),
      foldl_brandes_spokes hub spokes hnd hh spokes _ (fun x hx => hx)
        (fun x hx => ⟨0, hbc0 x (List.mem_cons_of_mem _ hx)⟩)
        ⟨0, hbc0 hub (List.mem_cons_self _ _)⟩]
    rw [hbc0 hub (List.mem_cons_self _ _), Option.getD_some, zero_add]
  have hcalc : ∀ x, mapGet (calculateBetweennessCentrality
      (starAdj hub spokes)) x =
      (mapGet (mapSet (initMapConst (hub :: spokes) (0 : ℚ)) hub
        ((spokes.length : ℚ) * ((spokes.length - 1 : ℕ) : ℚ))) x).map
        (fun q => q / 2) := by
    intro x
    unfold calculateBetweennessCentrality
    dsimp only
    rw [mapKeys_starAdj, hfold]
    exact mapGet_map_snd (fun q => q / 2) _ x
  have hspoke0 : ∀ s ∈ spokes,
      mapGet (calculateBetweennessCentrality (starAdj hub spokes)) s =
        some 0 := by
    intro s hs
    have hsh : s ≠ hub := fun h => hh (h ▸ hs)
    rw [hcalc s, mapGet_mapSet_ne _ hub s _ hsh,
      hbc0 s (List.mem_cons_of_mem _ hs)]
    simp
  refine ⟨hspoke0, (spokes.length : ℚ) * ((spokes.length - 1 : ℕ) : ℚ) / 2,
    ?_, ?_, ?_⟩
  · rw [hcalc hub, mapGet_mapSet_self]
    rfl
  · have h1 : (0 : ℚ) < (spokes.length : ℚ) := by
      exact_mod_cast (by omega : 0 < spokes.length)
    have h2 : (0 : ℚ) < ((spokes.length - 1 : ℕ) : ℚ) := by
      exact_mod_cast (by omega : 0 < spokes.length - 1)
    positivity
  · intro s hs bs hbs
    rw [hspoke0 s hs] at hbs
    have : bs = 0 := (Option.some_injective _ hbs).symm
    subst this
    have h1 : (0 : ℚ) < (spokes.length : ℚ) := by
      exact_mod_cast (by omega : 0 < spokes.length)
    have h2 : (0 : ℚ) < ((spokes.length - 1 : ℕ) : ℚ) := by
      exact_mod_cast (by omega : 0 < spokes.length - 1)
    positivity

/-- Witness for C1 on the two-spoke star `h - a`, `h - b`. -/
theorem betweennessCentrality_star_witness :
    mapGet (calculateBetweennessCentrality (starAdj "h" ["a", "b"])) "a" =
      some 0 ∧
    ∃ bh : ℚ,
      mapGet (calculateBetweennessCentrality (starAdj "h" ["a", "b"])) "h" =
        some bh ∧ 0 < bh := by
  have h := betweennessCentrality_star "h" ["a", "b"] (by decide) (by decide)
    (by decide)
  obtain ⟨hsp, bh, hbh, hpos, _⟩ := h
  exact ⟨hsp "a" (by decide), bh, hbh, hpos⟩

end ClaimC1
